import Mathlib

/-!
# Maps: a chained hash table and an AVL tree map

Shallow embedding of `src/TreeMap.h` and `src/HashMap.h`.

The tree lives in an explicit heap: a node pointer is `Option Nat` (`none` is
`nullptr`), `new` takes the next unused address, `delete` empties the cell, and
reading through a null or deleted pointer is the error `Err.fault`.  Every C++
`throw std::out_of_range` is `Err.outOfRange`.  Loops and recursions that walk
the pointer graph are bounded by the number of cells ever allocated plus one
(a walk that visits more cells than exist has entered a cycle); exceeding the
bound is `Err.diverge`.  `size_t` counters and `int` heights are unbounded
`Nat` / `Int`: a counter cannot exceed the number of allocated cells.

A tree operation that mutates the tree returns the new state.  `deleteKey`,
`TreeMap::remove` and `HashMap::remove`, whose contracts speak of the state
after a `throw`, return the state after the call together with the outcome; the
forms `AVLTree.deleteKey` and `TreeMap.remove` keep the state of a normal return
only.  A fault or an exhausted bound has no state after it.

The hash table is a function from bucket index to bucket; an iterator into a
bucket is the position in the bucket's list, the bucket's length being its
`end()`.  `std::hash` is a parameter `hash : K → Nat`.
-/

set_option autoImplicit false

namespace aisdi

/-- Ways in which an operation fails to return normally. -/
inductive Err where
  | outOfRange
  | fault
  | diverge
  deriving DecidableEq

/-- Node pointer: `none` is `nullptr`. -/
abbrev Ptr := Option Nat

/-- Translation of `struct TreeMap::Node`. -/
structure Node (K V : Type) where
  left : Ptr
  right : Ptr
  parent : Ptr
  key : K
  val : V
  deriving DecidableEq

/-- Memory holding the nodes; `next` is the first address never handed out. -/
structure Heap (K V : Type) where
  mem : Nat → Option (Node K V)
  next : Nat

variable {K V : Type}

/-- Dereference of a pointer. -/
def Heap.read (h : Heap K V) : Ptr → Except Err (Node K V)
  | none => .error .fault
  | some a =>
    match h.mem a with
    | none => .error .fault
    | some n => .ok n

/-- Store of a whole node at an address. -/
def Heap.write (h : Heap K V) (a : Nat) (n : Node K V) : Heap K V :=
  { mem := fun b => if b = a then some n else h.mem b, next := h.next }

/-- Assignment to fields of the node behind a pointer: `p->field = ...`. -/
def Heap.modify (h : Heap K V) (p : Ptr) (f : Node K V → Node K V) : Except Err (Heap K V) :=
  match p with
  | none => .error .fault
  | some a =>
    match h.mem a with
    | none => .error .fault
    | some n => .ok (h.write a (f n))

/-- Translation of `new Node(key, mapped_value)`: all three links are null. -/
def Heap.alloc (h : Heap K V) (k : K) (v : V) : Heap K V × Ptr :=
  ({ mem := fun b => if b = h.next then some ⟨none, none, none, k, v⟩ else h.mem b,
     next := h.next + 1 }, some h.next)

/-- Translation of `delete p`: a null pointer is ignored, a dead cell is a fault. -/
def Heap.free (h : Heap K V) : Ptr → Except Err (Heap K V)
  | none => .ok h
  | some a =>
    match h.mem a with
    | none => .error .fault
    | some _ => .ok { mem := fun b => if b = a then none else h.mem b, next := h.next }

/-- Bound on the length of any walk through distinct cells of the heap. -/
def Heap.fuel (h : Heap K V) : Nat := h.next + 1

/-- Translation of `class TreeMap::AVLTree` (its two data members, plus the heap). -/
structure AVLTree (K V : Type) where
  heap : Heap K V
  root : Ptr
  size : Nat

/-- Translation of `AVLTree::height`, by recursion bounded by `fuel`. -/
def heightAux (h : Heap K V) : Nat → Ptr → Except Err Int
  | _, none => .ok 0
  | 0, some _ => .error .diverge
  | n + 1, some a => do
    let nd ← h.read (some a)
    let hl ← heightAux h n nd.left
    let hr ← heightAux h n nd.right
    pure (1 + max hl hr)

/-- Translation of `AVLTree::height`. -/
def height (h : Heap K V) (p : Ptr) : Except Err Int :=
  heightAux h h.fuel p

/-- Translation of `AVLTree::rightRotation`. -/
def rightRotation (h : Heap K V) (node : Ptr) : Except Err (Heap K V × Ptr) := do
  let nd ← h.read node
  let tmp := nd.left
  let h ← h.modify tmp (fun x => { x with parent := nd.parent })
  let t ← h.read tmp
  let h ← h.modify node (fun x => { x with left := t.right })
  let t ← h.read tmp
  let h ← if t.right ≠ none then h.modify t.right (fun x => { x with parent := node })
          else pure h
  let h ← h.modify tmp (fun x => { x with right := node })
  let t ← h.read tmp
  let h ← if t.parent ≠ none then do
            let p ← h.read t.parent
            if p.right = node then h.modify t.parent (fun x => { x with right := tmp })
            else h.modify t.parent (fun x => { x with left := tmp })
          else pure h
  pure (h, tmp)

/-- Translation of `AVLTree::leftRotation`. -/
def leftRotation (h : Heap K V) (node : Ptr) : Except Err (Heap K V × Ptr) := do
  let nd ← h.read node
  let tmp := nd.right
  let h ← h.modify tmp (fun x => { x with parent := nd.parent })
  let t ← h.read tmp
  let h ← h.modify node (fun x => { x with right := t.left })
  let t ← h.read tmp
  let h ← if t.left ≠ none then h.modify t.left (fun x => { x with parent := node })
          else pure h
  let h ← h.modify tmp (fun x => { x with left := node })
  let t ← h.read tmp
  let h ← if t.parent ≠ none then do
            let p ← h.read t.parent
            if p.right = node then h.modify t.parent (fun x => { x with right := tmp })
            else h.modify t.parent (fun x => { x with left := tmp })
          else pure h
  pure (h, tmp)

/-- Translation of `AVLTree::leftRightRotation`. -/
def leftRightRotation (h : Heap K V) (node : Ptr) : Except Err (Heap K V × Ptr) := do
  let nd ← h.read node
  let (h, r) ← leftRotation h nd.left
  let h ← h.modify node (fun x => { x with left := r })
  rightRotation h node

/-- Translation of `AVLTree::rightLeftRotation`. -/
def rightLeftRotation (h : Heap K V) (node : Ptr) : Except Err (Heap K V × Ptr) := do
  let nd ← h.read node
  let (h, r) ← rightRotation h nd.right
  let h ← h.modify node (fun x => { x with right := r })
  leftRotation h node

/-- One visit of `AVLTree::rebalance`: the rotation chosen at `node`, if any.
Returns the heap and the node that now tops the subtree. -/
def rebalanceStep (h : Heap K V) (node : Ptr) : Except Err (Heap K V × Ptr) := do
  let nd ← h.read node
  let hl ← height h nd.left
  let hr ← height h nd.right
  let balance := hl - hr
  if balance = 2 then do
    let l ← h.read nd.left
    let hll ← height h l.left
    let hlr ← height h l.right
    if hll ≥ hlr then rightRotation h node else leftRightRotation h node
  else if balance = -2 then do
    let r ← h.read nd.right
    let hrr ← height h r.right
    let hrl ← height h r.left
    if hrr ≥ hrl then leftRotation h node else rightLeftRotation h node
  else pure (h, node)

/-- Translation of `AVLTree::rebalance`, by recursion bounded by `fuel`. -/
def rebalanceAux : Nat → AVLTree K V → Ptr → Except Err (AVLTree K V)
  | _, t, none => .ok t
  | 0, _, some _ => .error .diverge
  | n + 1, t, some a => do
    let (h, node) ← rebalanceStep t.heap (some a)
    let nd ← h.read node
    let p ← h.read nd.parent
    if p.parent ≠ none then rebalanceAux n { t with heap := h } nd.parent
    else pure { t with heap := h, root := node }

/-- Translation of `AVLTree::rebalance`. -/
def rebalance (t : AVLTree K V) (node : Ptr) : Except Err (AVLTree K V) :=
  rebalanceAux t.heap.fuel t node

/-- Translation of the constructor `AVLTree()` (and of `initAVLTree`) on a
given heap: the guard node is allocated and becomes the root. -/
def AVLTree.initOn [Inhabited K] [Inhabited V] (h : Heap K V) : AVLTree K V :=
  let r := h.alloc default default
  { heap := r.1, root := r.2, size := 0 }

/-- Translation of the constructor `AVLTree()` in a fresh heap. -/
def AVLTree.init [Inhabited K] [Inhabited V] : AVLTree K V :=
  AVLTree.initOn { mem := fun _ => none, next := 0 }

section ordered

variable [LinearOrder K]

/-- Translation of the descent loop of `AVLTree::insert(key, mapped_value)`. -/
def insertLoop : Nat → AVLTree K V → Ptr → K → V → Except Err (AVLTree K V × Ptr)
  | 0, _, _, _, _ => .error .diverge
  | n + 1, t, current, key, mv => do
    let c ← t.heap.read current
    if c.key = key then pure (t, current)
    else if c.key > key then
      if c.left = none then do
        let (h, fresh) := t.heap.alloc key mv
        let h ← h.modify current (fun x => { x with left := fresh })
        let c ← h.read current
        let h ← h.modify c.left (fun x => { x with parent := current })
        let c ← h.read current
        let created := c.left
        let t ← rebalance { heap := h, root := t.root, size := t.size + 1 } current
        pure (t, created)
      else insertLoop n t c.left key mv
    else
      if c.right = none then do
        let (h, fresh) := t.heap.alloc key mv
        let h ← h.modify current (fun x => { x with right := fresh })
        let c ← h.read current
        let h ← h.modify c.right (fun x => { x with parent := current })
        let c ← h.read current
        let created := c.right
        let t ← rebalance { heap := h, root := t.root, size := t.size + 1 } current
        pure (t, created)
      else insertLoop n t c.right key mv

/-- Translation of `AVLTree::insert(key, mapped_value)`. -/
def AVLTree.insert (t : AVLTree K V) (key : K) (mv : V) : Except Err (AVLTree K V × Ptr) :=
  if t.size = 0 then do
    let (h, node) := t.heap.alloc key mv
    let h ← h.modify node (fun x => { x with parent := t.root })
    let h ← h.modify t.root (fun x => { x with left := node })
    pure ({ heap := h, root := node, size := t.size + 1 }, node)
  else insertLoop t.heap.fuel t t.root key mv

/-- Translation of the loop of `AVLTree::findKey`. -/
def findLoop (h : Heap K V) (key : K) : Nat → Ptr → Except Err Ptr
  | _, none => .ok none
  | 0, some _ => .error .diverge
  | n + 1, some a => do
    let c ← h.read (some a)
    if c.key > key then findLoop h key n c.left
    else if c.key < key then findLoop h key n c.right
    else pure (some a)

/-- Translation of `AVLTree::findKey`. -/
def AVLTree.findKey (t : AVLTree K V) (key : K) : Except Err Ptr :=
  if t.size = 0 then .ok none else findLoop t.heap key t.heap.fuel t.root

end ordered

/-- Translation of `while(p->left != nullptr) p = p->left;`. -/
def leftmost (h : Heap K V) : Nat → Ptr → Except Err Ptr
  | 0, _ => .error .diverge
  | n + 1, p => do
    let c ← h.read p
    if c.left ≠ none then leftmost h n c.left else pure p

/-- Translation of `while(p->right != nullptr) p = p->right;`. -/
def rightmost (h : Heap K V) : Nat → Ptr → Except Err Ptr
  | 0, _ => .error .diverge
  | n + 1, p => do
    let c ← h.read p
    if c.right ≠ none then rightmost h n c.right else pure p

/-- Translation of `AVLTree::getFirstNode`. -/
def AVLTree.getFirstNode (t : AVLTree K V) : Except Err Ptr :=
  leftmost t.heap t.heap.fuel t.root

/-- Translation of `AVLTree::getLastNode`. -/
def AVLTree.getLastNode (t : AVLTree K V) : Except Err Ptr :=
  if t.size = 0 then .ok t.root
  else do
    let r ← t.heap.read t.root
    pure r.parent

/-- Translation of `AVLTree::getSize`. -/
def AVLTree.getSize (t : AVLTree K V) : Nat := t.size

section ordered

variable [LinearOrder K]

/-- Translation of `AVLTree::deleteKey`: the tree after the call, paired with the
outcome of the call, which is `.error .outOfRange` when the call throws and
`.ok ()` when it returns.  The state paired with a `throw` is the state reached
at the `throw` statement. -/
def AVLTree.deleteKeyRun (t : AVLTree K V) (key : K) :
    Except Err (AVLTree K V × Except Err Unit) := do
  let delNode ← t.findKey key
  if delNode = none then return (t, .error .outOfRange)
  let r ← t.heap.read t.root
  if r.key = key ∧ t.size = 1 then do
    let root := r.parent
    let g ← t.heap.read root
    let h ← t.heap.free g.left
    let h ← h.modify root (fun x => { x with left := none })
    pure ({ heap := h, root := root, size := t.size - 1 }, .ok ())
  else do
    let d ← t.heap.read delNode
    if d.left ≠ none ∧ d.right ≠ none then do
      let successor ← leftmost t.heap t.heap.fuel d.right
      let tmp := delNode
      let s ← t.heap.read successor
      let (h, delNode) := t.heap.alloc s.key s.val
      let x ← h.read tmp
      let h ← h.modify delNode (fun y => { y with parent := x.parent })
      let x ← h.read tmp
      let h ← h.modify delNode (fun y => { y with left := x.left })
      let x ← h.read tmp
      let h ← h.modify delNode (fun y => { y with right := x.right })
      let root := if t.root = tmp then delNode else t.root
      let x ← h.read tmp
      let p ← h.read x.parent
      let h ← if p.left = tmp then h.modify x.parent (fun y => { y with left := delNode })
              else h.modify x.parent (fun y => { y with right := delNode })
      let h ← h.free delNode
      let s ← h.read successor
      let h ← if s.right ≠ none then h.modify s.right (fun y => { y with parent := s.parent })
              else pure h
      let s ← h.read successor
      let p ← h.read s.parent
      let h ← if p.left = successor then h.modify s.parent (fun y => { y with left := s.right })
              else h.modify s.parent (fun y => { y with right := s.right })
      let s ← h.read successor
      let p ← h.read s.parent
      let t1 ← if p.parent ≠ none then rebalance { heap := h, root := root, size := t.size } s.parent
               else pure { heap := h, root := root, size := t.size }
      let h ← t1.heap.free successor
      pure ({ heap := h, root := t1.root, size := t1.size - 1 }, .ok ())
    else if d.left ≠ none ∧ d.right = none then do
      let h ← t.heap.modify d.left (fun y => { y with parent := d.parent })
      let d ← h.read delNode
      let p ← h.read d.parent
      let h ← if p.left = delNode then h.modify d.parent (fun y => { y with left := d.left })
              else h.modify d.parent (fun y => { y with right := d.left })
      let d ← h.read delNode
      let root := if delNode = t.root then d.left else t.root
      let p ← h.read d.parent
      let t1 ← if p.parent ≠ none then rebalance { heap := h, root := root, size := t.size } d.parent
               else pure { heap := h, root := root, size := t.size }
      let h ← t1.heap.free delNode
      pure ({ heap := h, root := t1.root, size := t1.size - 1 }, .ok ())
    else if d.left = none ∧ d.right ≠ none then do
      let h ← t.heap.modify d.right (fun y => { y with parent := d.parent })
      let d ← h.read delNode
      let p ← h.read d.parent
      let h ← if p.left = delNode then h.modify d.parent (fun y => { y with left := d.right })
              else h.modify d.parent (fun y => { y with right := d.right })
      let d ← h.read delNode
      let root := if delNode = t.root then d.right else t.root
      let p ← h.read d.parent
      let t1 ← if p.parent ≠ none then rebalance { heap := h, root := root, size := t.size } d.parent
               else pure { heap := h, root := root, size := t.size }
      let h ← t1.heap.free delNode
      pure ({ heap := h, root := t1.root, size := t1.size - 1 }, .ok ())
    else do
      let p ← t.heap.read d.parent
      let h ← if p.left = delNode then t.heap.modify d.parent (fun y => { y with left := none })
              else t.heap.modify d.parent (fun y => { y with right := none })
      let d ← h.read delNode
      let p ← h.read d.parent
      let t1 ← if p.parent ≠ none then rebalance { heap := h, root := t.root, size := t.size } d.parent
               else pure { heap := h, root := t.root, size := t.size }
      let h ← t1.heap.free delNode
      pure ({ heap := h, root := t1.root, size := t1.size - 1 }, .ok ())

/-- The call `deleteKey(key)` for a caller that lets the exception pass: the
tree after a normal return, or the error. -/
def AVLTree.deleteKey (t : AVLTree K V) (key : K) : Except Err (AVLTree K V) := do
  let (t2, outcome) ← t.deleteKeyRun key
  match outcome with
  | .ok _ => pure t2
  | .error e => throw e

end ordered

/-- Translation of `class TreeMap::ConstIterator` (its two data members). -/
structure TreeMap.ConstIterator where
  current : Ptr
  begin : Ptr
  deriving DecidableEq

/-- Translation of the ascent loop of `ConstIterator::operator++`:
`while(parent->left != current) { current = parent; parent = current->parent; }`. -/
def ascendFromRight (h : Heap K V) : Nat → Ptr → Ptr → Except Err Ptr
  | 0, _, _ => .error .diverge
  | n + 1, current, parent => do
    let p ← h.read parent
    if p.left ≠ current then ascendFromRight h n parent p.parent
    else pure parent

/-- Translation of the ascent loop of `ConstIterator::operator--`:
`while(parent->right != current) { current = parent; parent = current->parent; }`. -/
def ascendFromLeft (h : Heap K V) : Nat → Ptr → Ptr → Except Err Ptr
  | 0, _, _ => .error .diverge
  | n + 1, current, parent => do
    let p ← h.read parent
    if p.right ≠ current then ascendFromLeft h n parent p.parent
    else pure parent

/-- Translation of `ConstIterator::operator++()`. -/
def TreeMap.ConstIterator.incr (h : Heap K V) (it : TreeMap.ConstIterator) :
    Except Err TreeMap.ConstIterator := do
  if it.current = none ∨ it.begin = none then throw Err.outOfRange
  let c ← h.read it.current
  if c.parent = none then throw Err.outOfRange
  if c.right ≠ none then do
    let cur ← leftmost h h.fuel c.right
    pure { it with current := cur }
  else do
    let cur ← ascendFromRight h h.fuel it.current c.parent
    pure { it with current := cur }

/-- Translation of `ConstIterator::operator--()`. -/
def TreeMap.ConstIterator.decr (h : Heap K V) (it : TreeMap.ConstIterator) :
    Except Err TreeMap.ConstIterator := do
  if it.current = none ∨ it.begin = none then throw Err.outOfRange
  if it.current = it.begin then throw Err.outOfRange
  let c ← h.read it.current
  if c.left ≠ none then do
    let cur ← rightmost h h.fuel c.left
    pure { it with current := cur }
  else do
    let cur ← ascendFromLeft h h.fuel it.current c.parent
    pure { it with current := cur }

/-- Translation of `ConstIterator::operator*()`: the key/value pair of the node. -/
def TreeMap.ConstIterator.deref (h : Heap K V) (it : TreeMap.ConstIterator) :
    Except Err (K × V) := do
  if it.current = none ∨ it.begin = none then throw Err.outOfRange
  let c ← h.read it.current
  if c.parent = none then throw Err.outOfRange
  pure (c.key, c.val)

/-- Translation of `class TreeMap` (its single data member). -/
structure TreeMap (K V : Type) where
  tree : AVLTree K V

/-- Translation of the default constructor `TreeMap()`. -/
def TreeMap.empty [Inhabited K] [Inhabited V] : TreeMap K V := ⟨AVLTree.init⟩

/-- Translation of `TreeMap::getSize`. -/
def TreeMap.getSize (m : TreeMap K V) : Nat := m.tree.getSize

/-- Translation of `TreeMap::isEmpty`. -/
def TreeMap.isEmpty (m : TreeMap K V) : Bool := m.tree.getSize == 0

/-- Translation of `TreeMap::cbegin` (and `begin`). -/
def TreeMap.cbegin (m : TreeMap K V) : Except Err TreeMap.ConstIterator := do
  let f ← m.tree.getFirstNode
  let g ← m.tree.getFirstNode
  pure ⟨f, g⟩

/-- Translation of `TreeMap::cend` (and `end`). -/
def TreeMap.cend (m : TreeMap K V) : Except Err TreeMap.ConstIterator := do
  let l ← m.tree.getLastNode
  let f ← m.tree.getFirstNode
  pure ⟨l, f⟩

/-- Translation of the client loop
`for(it = m.cbegin(); it != m.cend(); ++it) visit(*it);`, collecting the visited
pairs. -/
def traverseLoop (h : Heap K V) (last : TreeMap.ConstIterator) :
    Nat → TreeMap.ConstIterator → Except Err (List (K × V))
  | 0, _ => .error .diverge
  | n + 1, it =>
    if it = last then pure []
    else do
      let x ← it.deref h
      let it ← it.incr h
      let rest ← traverseLoop h last n it
      pure (x :: rest)

/-- Sequence of entries visited by iterating from `begin()` to `end()`. -/
def TreeMap.traverse (m : TreeMap K V) : Except Err (List (K × V)) := do
  let b ← m.cbegin
  let e ← m.cend
  traverseLoop m.tree.heap e m.tree.heap.fuel b

section ordered

variable [LinearOrder K]

/-- Translation of `TreeMap::operator[]`: the returned reference is the pointer
to the node whose value slot it designates. -/
def TreeMap.index [Inhabited V] (m : TreeMap K V) (key : K) : Except Err (TreeMap K V × Ptr) := do
  let (t, p) ← m.tree.insert key default
  pure (⟨t⟩, p)

/-- Translation of the statement `m[key] = v;`. -/
def TreeMap.assign [Inhabited V] (m : TreeMap K V) (key : K) (v : V) : Except Err (TreeMap K V) := do
  let (m, p) ← m.index key
  let h ← m.tree.heap.modify p (fun x => { x with val := v })
  pure ⟨{ m.tree with heap := h }⟩

/-- Translation of `TreeMap::valueOf`. -/
def TreeMap.valueOf (m : TreeMap K V) (key : K) : Except Err V := do
  let tmp ← m.tree.findKey key
  if tmp = none then throw Err.outOfRange
  let n ← m.tree.heap.read tmp
  pure n.val

/-- Translation of `TreeMap::find`. -/
def TreeMap.find (m : TreeMap K V) (key : K) : Except Err TreeMap.ConstIterator := do
  let tmp ← m.tree.findKey key
  if tmp = none then m.cend
  else do
    let f ← m.tree.getFirstNode
    pure ⟨tmp, f⟩

/-- Translation of `TreeMap::remove(const key_type&)`. -/
def TreeMap.remove (m : TreeMap K V) (key : K) : Except Err (TreeMap K V) := do
  let t ← m.tree.deleteKey key
  pure ⟨t⟩

/-- Translation of `TreeMap::remove(const key_type&)`, `tree.deleteKey(key);`,
with the map after the call and the outcome of the call. -/
def TreeMap.removeRun (m : TreeMap K V) (key : K) :
    Except Err (TreeMap K V × Except Err Unit) := do
  let (t, outcome) ← m.tree.deleteKeyRun key
  pure (⟨t⟩, outcome)

/-- Translation of the initializer-list constructor: `tree.insert(k, v)` for
each pair in turn. -/
def TreeMap.insertAll (m : TreeMap K V) : List (K × V) → Except Err (TreeMap K V)
  | [] => pure m
  | (k, v) :: rest => do
    let (t, _) ← m.tree.insert k v
    TreeMap.insertAll ⟨t⟩ rest

/-- Translation of the client loop `for(k : keys) m[k];`. -/
def TreeMap.indexAll [Inhabited V] (m : TreeMap K V) : List K → Except Err (TreeMap K V)
  | [] => pure m
  | k :: rest => do
    let (m, _) ← m.index k
    TreeMap.indexAll m rest

/-- Translation of the loop of `TreeMap::operator==` (`a` is `*this`, `b` is
`other`, `last` is `other.cend()`). -/
def TreeMap.eqLoop [DecidableEq V] (a b : TreeMap K V) (last : TreeMap.ConstIterator) :
    Nat → TreeMap.ConstIterator → Except Err Bool
  | 0, _ => .error .diverge
  | n + 1, it =>
    if it = last then pure true
    else do
      let x ← it.deref b.tree.heap
      let cit ← a.find x.1
      let e ← a.cend
      if cit = e then pure false
      else do
        let y ← cit.deref a.tree.heap
        let x ← it.deref b.tree.heap
        if y.2 ≠ x.2 then pure false
        else do
          let it ← it.incr b.tree.heap
          TreeMap.eqLoop a b last n it

/-- Translation of `TreeMap::operator==`: `a == b`. -/
def TreeMap.beq [DecidableEq V] (a b : TreeMap K V) : Except Err Bool :=
  if a.tree.getSize ≠ b.getSize then pure false
  else do
    let c ← b.cbegin
    let e ← b.cend
    TreeMap.eqLoop a b e b.tree.heap.fuel c

end ordered

/-! ### Reading a tree through its child links -/

/-- Topmost real node: null while the map is empty (then `root` is the guard). -/
def AVLTree.top (t : AVLTree K V) : Ptr :=
  if t.size = 0 then none else t.root

/-- Entries of the subtree below `p`, in order: left subtree, node, right subtree. -/
def inorderFrom (h : Heap K V) : Nat → Ptr → Except Err (List (K × V))
  | _, none => .ok []
  | 0, some _ => .error .diverge
  | n + 1, some a => do
    let nd ← h.read (some a)
    let l ← inorderFrom h n nd.left
    let r ← inorderFrom h n nd.right
    pure (l ++ (nd.key, nd.val) :: r)

/-- Entries of the tree in order of its child links, from the topmost real node. -/
def AVLTree.inorder (t : AVLTree K V) : Except Err (List (K × V)) :=
  inorderFrom t.heap t.heap.fuel t.top

/-- Whether every node below `p` has `|height(left) - height(right)| <= 1`,
with `height` the function of the source. -/
def balancedFrom (h : Heap K V) : Nat → Ptr → Except Err Bool
  | _, none => .ok true
  | 0, some _ => .error .diverge
  | n + 1, some a => do
    let nd ← h.read (some a)
    let hl ← height h nd.left
    let hr ← height h nd.right
    let bl ← balancedFrom h n nd.left
    let br ← balancedFrom h n nd.right
    pure (decide ((hl - hr).natAbs ≤ 1) && bl && br)

/-- Whether every node reachable from the topmost real node is height-balanced. -/
def AVLTree.balanced (t : AVLTree K V) : Except Err Bool :=
  balancedFrom t.heap t.heap.fuel t.top

/-- Whether every node below `p` has all keys of its left subtree smaller and
all keys of its right subtree greater than its own key. -/
def orderedFrom [LinearOrder K] (h : Heap K V) : Nat → Ptr → Except Err Bool
  | _, none => .ok true
  | 0, some _ => .error .diverge
  | n + 1, some a => do
    let nd ← h.read (some a)
    let l ← inorderFrom h n nd.left
    let r ← inorderFrom h n nd.right
    let bl ← orderedFrom h n nd.left
    let br ← orderedFrom h n nd.right
    pure (l.all (fun e => decide (e.1 < nd.key)) && r.all (fun e => decide (nd.key < e.1))
      && bl && br)

/-- Whether the tree below the topmost real node is a binary search tree. -/
def AVLTree.ordered [LinearOrder K] (t : AVLTree K V) : Except Err Bool :=
  orderedFrom t.heap t.heap.fuel t.top

/-! ## The hash table (`src/HashMap.h`) -/

/-- Translation of `#define BUCKETS_NUMBER 64000`. -/
def BUCKETS_NUMBER : Nat := 64000

/-- Translation of `class HashMap` (its two data members). Only the buckets
`hashTable i` with `i < BUCKETS_NUMBER` belong to the array. -/
structure HashMap (K V : Type) where
  hashTable : Nat → List (K × V)
  size : Nat

/-- Translation of `class HashMap::ConstIterator`: bucket index and position in
the bucket (the pointer to the table is the map passed along). -/
structure HashMap.ConstIterator where
  index : Nat
  it : Nat
  deriving DecidableEq

/-- Translation of the default constructor `HashMap()`. -/
def HashMap.empty : HashMap K V :=
  { hashTable := fun _ => [], size := 0 }

/-- Translation of `HashMap::isEmpty`. -/
def HashMap.isEmpty (m : HashMap K V) : Bool := m.size == 0

/-- Translation of `HashMap::getSize`. -/
def HashMap.getSize (m : HashMap K V) : Nat := m.size

/-- Translation of the bucket scan
`for(it = b.begin(); it != b.end(); ++it) if((*it).first == key) return ...`:
position of the first entry carrying `key`. -/
def scanBucket [DecidableEq K] (key : K) : List (K × V) → Option Nat
  | [] => none
  | e :: rest =>
    if e.1 = key then some 0
    else
      match scanBucket key rest with
      | some pos => some (pos + 1)
      | none => none

/-- Assignment through a reference to the value slot at a position of a bucket. -/
def setValueAt (v : V) : List (K × V) → Nat → List (K × V)
  | [], _ => []
  | e :: rest, 0 => (e.1, v) :: rest
  | e :: rest, pos + 1 => e :: setValueAt v rest pos

/-- Translation of the backward scan of `HashMap::cend`, from bucket `i` down:
`while(i >= 0) { if(!hashTable[i].empty()) return ...; --i; }`.  Below bucket
0 the unsigned index wraps around and the next read is outside the array. -/
def scanDown (m : HashMap K V) : Nat → Except Err HashMap.ConstIterator
  | 0 =>
    if (m.hashTable 0).isEmpty then .error .fault
    else .ok ⟨0, (m.hashTable 0).length⟩
  | i + 1 =>
    if (m.hashTable (i + 1)).isEmpty then scanDown m i
    else .ok ⟨i + 1, (m.hashTable (i + 1)).length⟩

/-- Translation of `HashMap::cend` (and `end`). -/
def HashMap.cend (m : HashMap K V) : Except Err HashMap.ConstIterator :=
  if m.isEmpty then .ok ⟨0, (m.hashTable 0).length⟩
  else scanDown m (BUCKETS_NUMBER - 1)

/-- Translation of the forward scan of `HashMap::cbegin`:
`while(i < BUCKETS_NUMBER) { if(!hashTable[i].empty()) return ...; ++i; }`,
with `n` buckets left to look at. -/
def scanUp (m : HashMap K V) : Nat → Nat → Option Nat
  | 0, _ => none
  | n + 1, i => if (m.hashTable i).isEmpty then scanUp m n (i + 1) else some i

/-- Translation of `HashMap::cbegin` (and `begin`). -/
def HashMap.cbegin (m : HashMap K V) : HashMap.ConstIterator :=
  if m.isEmpty then ⟨0, 0⟩
  else
    match scanUp m BUCKETS_NUMBER 0 with
    | some i => ⟨i, 0⟩
    | none => ⟨0, 0⟩

/-- Translation of `HashMap::ConstIterator::operator*()`. -/
def HashMap.ConstIterator.deref (m : HashMap K V) (c : HashMap.ConstIterator) :
    Except Err (K × V) :=
  if c.it = (m.hashTable c.index).length then .error .outOfRange
  else
    match (m.hashTable c.index)[c.it]? with
    | some e => .ok e
    | none => .error .fault

/-- Translation of `HashMap::ConstIterator::operator++()`. -/
def HashMap.ConstIterator.incr (m : HashMap K V) (c : HashMap.ConstIterator) :
    Except Err HashMap.ConstIterator :=
  if c.it = (m.hashTable c.index).length then .error .outOfRange
  else if c.it + 1 = (m.hashTable c.index).length then
    match scanUp m (BUCKETS_NUMBER - (c.index + 1)) (c.index + 1) with
    | some i => .ok ⟨i, 0⟩
    | none => .ok ⟨c.index, c.it + 1⟩
  else .ok ⟨c.index, c.it + 1⟩

/-- Translation of the backward scan of `HashMap::ConstIterator::operator--`,
from bucket `i` down:
`while(i >= 0) { if(!hashTable[i].empty()) { it = --(hashTable[i].end()); ... } --i; }`.
Below bucket 0 the unsigned index wraps around and the next read is outside the
array; the `throw` after the loop is never reached. -/
def scanDownLast (m : HashMap K V) : Nat → Except Err HashMap.ConstIterator
  | 0 =>
    if (m.hashTable 0).isEmpty then .error .fault
    else .ok ⟨0, (m.hashTable 0).length - 1⟩
  | i + 1 =>
    if (m.hashTable (i + 1)).isEmpty then scanDownLast m i
    else .ok ⟨i + 1, (m.hashTable (i + 1)).length - 1⟩

/-- Translation of `HashMap::ConstIterator::operator--()`. -/
def HashMap.ConstIterator.decr (m : HashMap K V) (c : HashMap.ConstIterator) :
    Except Err HashMap.ConstIterator :=
  if c.it ≠ 0 then .ok ⟨c.index, c.it - 1⟩
  else if c.index = 0 then .error .outOfRange
  else scanDownLast m (c.index - 1)

/-- Concatenation of the `n` buckets from bucket `i` on, in index order. -/
def bucketsFrom (m : HashMap K V) : Nat → Nat → List (K × V)
  | 0, _ => []
  | n + 1, i => m.hashTable i ++ bucketsFrom m n (i + 1)

/-- Entries of the bucket array: bucket 0, then bucket 1, and so on, each in
its list order. -/
def HashMap.entries (m : HashMap K V) : List (K × V) :=
  bucketsFrom m BUCKETS_NUMBER 0

/-- Translation of the client loop
`for(it = m.begin(); it != m.end(); ++it) visit(*it);`, collecting the visited
pairs; `n` bounds the number of iterations. -/
def HashMap.traverseLoop (m : HashMap K V) (last : HashMap.ConstIterator) :
    Nat → HashMap.ConstIterator → Except Err (List (K × V))
  | 0, _ => .error .diverge
  | n + 1, it =>
    if it = last then pure []
    else do
      let x ← it.deref m
      let it ← it.incr m
      let rest ← HashMap.traverseLoop m last n it
      pure (x :: rest)

/-- Sequence of entries visited by iterating from `begin()` to `end()`.  Every
iteration dereferences a different position of the array, so the walk is
bounded by the number of entries plus one. -/
def HashMap.traverse (m : HashMap K V) : Except Err (List (K × V)) := do
  let e ← m.cend
  HashMap.traverseLoop m e (m.entries.length + 1) m.cbegin

/-- Result of applying `++` to an iterator `n` times. -/
def HashMap.advance (m : HashMap K V) :
    Nat → HashMap.ConstIterator → Except Err HashMap.ConstIterator
  | 0, c => .ok c
  | n + 1, c => do
    let c ← c.incr m
    HashMap.advance m n c

/-- Position of an iterator in a walk towards `e`: either `c` is `e` and no
entry is left, or `c` designates an entry of the array and `l` lists the
entries from there on: the rest of its bucket, then the later buckets. -/
def HashMap.At (m : HashMap K V) (e c : HashMap.ConstIterator) (l : List (K × V)) : Prop :=
  (c = e ∧ l = []) ∨
  (c.index < BUCKETS_NUMBER ∧ c.it < (m.hashTable c.index).length ∧
    l = (m.hashTable c.index).drop c.it ++
      bucketsFrom m (BUCKETS_NUMBER - (c.index + 1)) (c.index + 1))

/-- Translation of the move constructor `HashMap(HashMap&& other)`: the new
map and the source after the call.  `hashTable[i] = std::move(other.hashTable[i])`
hands the nodes of each of the `BUCKETS_NUMBER` lists over and leaves the
moved-from list empty; `other.size` is not assigned. -/
def HashMap.moveConstruct (other : HashMap K V) : HashMap K V × HashMap K V :=
  ({ hashTable := fun i => if i < BUCKETS_NUMBER then other.hashTable i else [],
     size := other.size },
   { hashTable := fun i => if i < BUCKETS_NUMBER then [] else other.hashTable i,
     size := other.size })

section hashed

variable [DecidableEq K] (hash : K → Nat)

/-- Translation of `HashMap::operator[]`: the new map and the returned
reference, as the bucket index and position of the value slot. -/
def HashMap.index [Inhabited V] (m : HashMap K V) (key : K) : HashMap K V × (Nat × Nat) :=
  let index := hash key % BUCKETS_NUMBER
  match scanBucket key (m.hashTable index) with
  | some pos => (m, (index, pos))
  | none =>
    ({ hashTable := fun i => if i = index then m.hashTable index ++ [(key, default)]
                             else m.hashTable i,
       size := m.size + 1 },
     (index, (m.hashTable index ++ [(key, default)]).length - 1))

/-- Read through a reference returned by `operator[]`. -/
def HashMap.slotValue (m : HashMap K V) (slot : Nat × Nat) : Option V :=
  ((m.hashTable slot.1)[slot.2]?).map Prod.snd

/-- Translation of the statement `m[key] = v;`. -/
def HashMap.assign [Inhabited V] (m : HashMap K V) (key : K) (v : V) : HashMap K V :=
  let r := HashMap.index hash m key
  { hashTable := fun i => if i = r.2.1 then setValueAt v (r.1.hashTable i) r.2.2
                          else r.1.hashTable i,
    size := r.1.size }

/-- Translation of `HashMap::valueOf`. -/
def HashMap.valueOf (m : HashMap K V) (key : K) : Except Err V :=
  if m.isEmpty then .error .outOfRange
  else
    let index := hash key % BUCKETS_NUMBER
    if (m.hashTable index).isEmpty then .error .outOfRange
    else
      match scanBucket key (m.hashTable index) with
      | some pos =>
        match (m.hashTable index)[pos]? with
        | some e => .ok e.2
        | none => .error .fault
      | none => .error .outOfRange

/-- Translation of `HashMap::find`. -/
def HashMap.find (m : HashMap K V) (key : K) : Except Err HashMap.ConstIterator :=
  if m.isEmpty then m.cend
  else
    let index := hash key % BUCKETS_NUMBER
    match scanBucket key (m.hashTable index) with
    | some pos => .ok ⟨index, pos⟩
    | none => m.cend

/-- Translation of `HashMap::remove(const key_type&)`: the map after the call
and the outcome of the call.  Every way out before the erasure leaves the map
as it was (`find`, `cend` and `operator*` are const); `std::list::remove`
deletes every element equal to the given pair. -/
def HashMap.remove [DecidableEq V] (m : HashMap K V) (key : K) :
    HashMap K V × Except Err Unit :=
  match HashMap.find hash m key, m.cend with
  | .error err, _ => (m, .error err)
  | .ok _, .error err => (m, .error err)
  | .ok it, .ok e =>
    if it = e then (m, .error .outOfRange)
    else
      match it.deref m with
      | .error err => (m, .error err)
      | .ok x =>
        ({ hashTable := fun i =>
             if i = it.index then (m.hashTable it.index).filter (fun y => y ≠ x)
             else m.hashTable i,
           size := m.size - 1 }, .ok ())

/-- Translation of `HashMap::remove(const const_iterator&)`: the map after the
call and the outcome of the call. -/
def HashMap.removeAt [DecidableEq V] (m : HashMap K V) (it : HashMap.ConstIterator) :
    HashMap K V × Except Err Unit :=
  match m.cend with
  | .error err => (m, .error err)
  | .ok e =>
    if it = e then (m, .error .outOfRange)
    else
      match it.deref m with
      | .error err => (m, .error err)
      | .ok x =>
        ({ hashTable := fun i =>
             if i = it.index then (m.hashTable it.index).filter (fun y => y ≠ x)
             else m.hashTable i,
           size := m.size - 1 }, .ok ())

/-- Maps obtained from the default-constructed map by `operator[]` calls,
assignments through the returned reference, `remove(key)` calls, and
`remove(iterator)` calls on an iterator that designates an entry of the map. -/
inductive HashMap.Reachable [DecidableEq V] [Inhabited V] : HashMap K V → Prop
  | empty : HashMap.Reachable HashMap.empty
  | index (m : HashMap K V) (key : K) :
      HashMap.Reachable m → HashMap.Reachable (HashMap.index hash m key).1
  | assign (m : HashMap K V) (key : K) (v : V) :
      HashMap.Reachable m → HashMap.Reachable (HashMap.assign hash m key v)
  | remove (m : HashMap K V) (key : K) :
      HashMap.Reachable m → HashMap.Reachable (HashMap.remove hash m key).1
  | removeAt (m : HashMap K V) (it : HashMap.ConstIterator) :
      HashMap.Reachable m → it.index < BUCKETS_NUMBER →
      it.it < (m.hashTable it.index).length →
      HashMap.Reachable (HashMap.removeAt m it).1

/-- Translation of the client loop `for(k : keys) m[k];`. -/
def HashMap.indexAll [Inhabited V] (m : HashMap K V) : List K → HashMap K V
  | [] => m
  | k :: rest => HashMap.indexAll (HashMap.index hash m k).1 rest

/-- Translation of the loop of the initializer-list constructor:
`for(auto pair : list) (*this)[pair.first] = pair.second;`. -/
def HashMap.assignAll [Inhabited V] (m : HashMap K V) : List (K × V) → HashMap K V
  | [] => m
  | (k, v) :: rest => HashMap.assignAll (HashMap.assign hash m k v) rest

/-- Translation of the loop of `HashMap::operator==` (`a` is `*this`, `b` is
`other`, `last` is `other.cend()`); `n` bounds the number of iterations. -/
def HashMap.eqLoop [DecidableEq V] (a b : HashMap K V) (last : HashMap.ConstIterator) :
    Nat → HashMap.ConstIterator → Except Err Bool
  | 0, _ => .error .diverge
  | n + 1, it =>
    if it = last then pure true
    else do
      let x ← it.deref b
      let cit ← HashMap.find hash a x.1
      let e ← a.cend
      if cit = e then pure false
      else do
        let y ← cit.deref a
        let x ← it.deref b
        if y.2 ≠ x.2 then pure false
        else do
          let it ← it.incr b
          HashMap.eqLoop a b last n it

/-- Translation of `HashMap::operator==`: `a == b`. -/
def HashMap.beq [DecidableEq V] (a b : HashMap K V) : Except Err Bool :=
  if a.getSize ≠ b.getSize then pure false
  else do
    let e ← b.cend
    HashMap.eqLoop hash a b e (b.entries.length + 1) b.cbegin

/-- Translation of the move assignment `a = std::move(b)`: the destination
and the source after the call. -/
def HashMap.moveAssign [DecidableEq V] (a b : HashMap K V) :
    Except Err (HashMap K V × HashMap K V) := do
  let same ← HashMap.beq hash a b
  if same then pure (a, b)
  else
    let dst : HashMap K V :=
      { hashTable := fun i => if i < BUCKETS_NUMBER then b.hashTable i else a.hashTable i,
        size := b.size }
    let src : HashMap K V :=
      { hashTable := fun i => if i < BUCKETS_NUMBER then [] else b.hashTable i,
        size := b.size }
    pure (dst, src)

/-- An entry with this key is stored somewhere in the table. -/
def HashMap.Stored (m : HashMap K V) (key : K) : Prop :=
  ∃ i v, (key, v) ∈ m.hashTable i

/-- Data invariant of the hash table: every entry sits in the bucket of its
key, no bucket holds a key twice, and `size` counts the entries of the array. -/
structure HashMap.WF (m : HashMap K V) : Prop where
  home : ∀ i e, e ∈ m.hashTable i → hash e.1 % BUCKETS_NUMBER = i
  nodup : ∀ i, ((m.hashTable i).map Prod.fst).Nodup
  count : m.size = ∑ i in Finset.range BUCKETS_NUMBER, (m.hashTable i).length

end hashed

/-- Hash of an integer key: the identity, as `std::hash<int>` in libstdc++. -/
def natHash : Nat → Nat := fun k => k

/-- Map after `m[1]; m[64001];` with `natHash`: both keys fall into bucket 1. -/
def collidingMap : HashMap Nat Nat :=
  (HashMap.index natHash (HashMap.index natHash HashMap.empty 1).1 64001).1

/-- Map after `m[64001]; m[1];` with `natHash`: the entries of `collidingMap`
in the other insertion order. -/
def collidingMapSwapped : HashMap Nat Nat :=
  (HashMap.index natHash (HashMap.index natHash HashMap.empty 64001).1 1).1

/-- Map after `m[1];` with `natHash`: its only entry is in bucket 1. -/
def oneKeyMap : HashMap Nat Nat :=
  (HashMap.index natHash HashMap.empty 1).1

/-- Tree of the map built from the pairs (2, 20), (1, 10), (3, 30). -/
def sampleTree : AVLTree Nat Nat :=
  match (TreeMap.empty : TreeMap Nat Nat).insertAll [(2, 20), (1, 10), (3, 30)] with
  | .ok m => m.tree
  | .error _ => AVLTree.init

/-! ### Subtrees as values -/

/-- Shape of a subtree: for every node its address, key, value and the shapes of
its two subtrees. -/
inductive Shape (K V : Type) where
  | nil : Shape K V
  | node (l : Shape K V) (a : Nat) (k : K) (v : V) (r : Shape K V) : Shape K V

/-- Entries of a shape, in order: left subtree, node, right subtree. -/
def Shape.entries : Shape K V → List (K × V)
  | .nil => []
  | .node l _ k v r => l.entries ++ (k, v) :: r.entries

/-- C1, the code at `m[2]; m[1]; m[3]; m[4]; m[5];`: the fifth call rotates left
at node 3, which keeps node 2 as its parent although it now hangs below node 4.
The map has size 5, but the walk from `begin()` visits the keys 1, 2, 3 and then
steps from node 3 through node 2 to the guard, so it arrives at `end()` after 3
entries.  At `m[1]; m[2]; m[3];` the rotated node 1 keeps the guard as parent,
and `++` applied to `begin()` climbs to the guard's null parent and reads
through it. -/
theorem treeMap_traverse_after_rotation :
    ((TreeMap.empty : TreeMap Nat Nat).indexAll [2, 1, 3, 4, 5] >>= fun m =>
      m.tree.inorder >>= fun l =>
      m.traverse >>= fun t =>
      pure (m.getSize, l.map Prod.fst, t.map Prod.fst))
    = Except.ok (5, [1, 2, 3, 4, 5], [1, 2, 3]) ∧
    ((TreeMap.empty : TreeMap Nat Nat).indexAll [1, 2, 3] >>= fun m =>
      m.cbegin >>= fun b =>
      b.deref m.tree.heap >>= fun x =>
      pure (m.getSize, x.1, b.incr m.tree.heap, m.traverse))
    = Except.ok (3, 1, Except.error Err.fault, Except.error Err.fault) :=
  ⟨rfl, rfl⟩

/-- C2, the code at the scenario of the specification: after inserting
5, 3, 8, 1, 4, 7, 9 the walk from `begin()` to `end()` yields 1, 3, 4, 5, 7, 8, 9;
`remove(5)` then lowers the size to 6, yet key 5 is still found with its value,
the child links from the root read 1, 3, 4, 5, 8, 9 (key 7 is gone instead), and the
walk from `begin()` ends in a null dereference. -/
theorem treeMap_remove_two_children :
    ((TreeMap.empty : TreeMap Nat Nat).insertAll
        [(5, 50), (3, 30), (8, 80), (1, 10), (4, 40), (7, 70), (9, 90)] >>= fun m =>
      m.traverse >>= fun before =>
      m.remove 5 >>= fun m2 =>
      m2.tree.inorder >>= fun after =>
      pure (before.map Prod.fst, m2.getSize, m2.valueOf 5, after.map Prod.fst, m2.traverse))
    = Except.ok ([1, 3, 4, 5, 7, 8, 9], 6, Except.ok 50, [1, 3, 4, 5, 8, 9],
        Except.error Err.fault) := by
  rfl

/-- C3, the code at `m[1]; m[2]; m[3]; m.remove(1);`: node 1 is a leaf whose
parent pointer still names the guard, so `remove(1)` clears `guard->right`
instead of the left link of node 2 and then deletes node 1.  The size drops to 2,
but node 2 still points to the deleted node: `find(1)`, the walk from `begin()`
and the reading of the child links all read the deleted node. -/
theorem treeMap_remove_leaf_after_rotation :
    ((TreeMap.empty : TreeMap Nat Nat).indexAll [1, 2, 3] >>= fun m =>
      m.tree.inorder >>= fun before =>
      m.remove 1 >>= fun m2 =>
      pure (before.map Prod.fst, m2.getSize, m2.find 1, m2.traverse, m2.tree.inorder))
    = Except.ok ([1, 2, 3], 2, Except.error Err.fault, Except.error Err.fault,
        Except.error Err.fault) := by
  rfl

/-- C4, the code at the tree built by inserting 1, 2, 3, 5, 4, 6, which is
height-balanced and ordered with in-order keys 1..6: `insert(7, 70)` returns
normally and leaves a tree whose in-order keys through the child links are
1, 2, 5, 6, 7, 3, so it is no longer a binary search tree (and key 4 is lost). -/
theorem avl_insert_breaks_order :
    ((TreeMap.empty : TreeMap Nat Nat).insertAll
        [(1, 10), (2, 20), (3, 30), (5, 50), (4, 40), (6, 60)] >>= fun m =>
      m.tree.balanced >>= fun b =>
      m.tree.ordered >>= fun o =>
      m.tree.inorder >>= fun before =>
      m.tree.insert 7 70 >>= fun r =>
      r.1.ordered >>= fun o2 =>
      r.1.inorder >>= fun after =>
      pure (b, o, before.map Prod.fst, o2, after.map Prod.fst))
    = Except.ok (true, true, [1, 2, 3, 4, 5, 6], false, [1, 2, 5, 6, 7, 3]) := by
  rfl

/-- C5, the code at the tree built by inserting 1, 2, 3, 7, 5, 4, 6, 8 (balanced,
ordered, in-order keys 1..8): `deleteKey(4)` removes a leaf and returns normally
with a root whose left subtree has height 3 and whose right subtree is empty. -/
theorem avl_delete_breaks_balance :
    ((TreeMap.empty : TreeMap Nat Nat).insertAll
        [(1, 10), (2, 20), (3, 30), (7, 70), (5, 50), (4, 40), (6, 60), (8, 80)] >>= fun m =>
      m.tree.balanced >>= fun b =>
      m.tree.ordered >>= fun o =>
      m.tree.inorder >>= fun before =>
      m.tree.deleteKey 4 >>= fun t =>
      t.heap.read t.root >>= fun r =>
      height t.heap r.left >>= fun hl =>
      height t.heap r.right >>= fun hr =>
      t.balanced >>= fun b2 =>
      pure (b, o, before.map Prod.fst, t.size, hl, hr, b2))
    = Except.ok (true, true, [1, 2, 3, 4, 5, 6, 7, 8], 7, 3, 0, false) := by
  rfl

/-- C9, the code at `m[1]; m[2]; m[3]; m[0];`: the fourth call ends its
rebalancing walk at node 1 (whose parent pointer names the guard) and makes it
the root, so that `valueOf(2)` and `valueOf(3)` throw although both keys were
inserted and the size is 4. -/
theorem treeMap_valueOf_loses_keys :
    ((TreeMap.empty : TreeMap Nat Nat).indexAll [1, 2, 3, 0] >>= fun m =>
      pure (m.getSize, m.valueOf 0, m.valueOf 1, m.valueOf 2, m.valueOf 3))
    = Except.ok (4, Except.ok 0, Except.ok 0, Except.error Err.outOfRange,
        Except.error Err.outOfRange) := by
  rfl

/-- C10, the code at `m[1]; m[2]; m[3]; m[0]; m[2];`: the repeated key 2 is no
longer reachable from the root after the fourth call, so the fifth call creates
a second node for it and the size becomes 5 for 4 distinct keys. -/
theorem treeMap_size_counts_duplicate :
    ((TreeMap.empty : TreeMap Nat Nat).indexAll [1, 2, 3, 0, 2] >>= fun m =>
      pure (m.getSize, [1, 2, 3, 0, 2].dedup.length))
    = Except.ok (5, 4) := by
  rfl

/-- C14, the code at the pairs (2,20), (1,10), (3,30), (4,40), (5,50): `a` is built
in this order (the last insertion rotates, and the walk over `a` ends after the
keys 1, 2, 3), `b` from the permutation (3,30), (2,20), (4,40), (1,10), (5,50)
followed by `b[5] = 51`.  `b == a` walks over `a`, never compares key 5
and returns true, while `a == b` returns false.  At the pairs (1,10), (2,20),
(3,30) and the permutation (2,20), (1,10), (3,30), without any changed value,
`b == a` reads through a null pointer while walking over `a`. -/
theorem treeMap_eq_misses_difference :
    ((TreeMap.empty : TreeMap Nat Nat).insertAll
        [(2, 20), (1, 10), (3, 30), (4, 40), (5, 50)] >>= fun a =>
      (TreeMap.empty : TreeMap Nat Nat).insertAll
        [(3, 30), (2, 20), (4, 40), (1, 10), (5, 50)] >>= fun b0 =>
      b0.assign 5 51 >>= fun b =>
      pure (a.valueOf 5, b.valueOf 5, b.beq a, a.beq b))
    = Except.ok (Except.ok 50, Except.ok 51, Except.ok true, Except.ok false) ∧
    ((TreeMap.empty : TreeMap Nat Nat).insertAll [(1, 10), (2, 20), (3, 30)] >>= fun a =>
      (TreeMap.empty : TreeMap Nat Nat).insertAll [(2, 20), (1, 10), (3, 30)] >>= fun b =>
      pure (a.beq b, b.beq a))
    = Except.ok (Except.ok true, Except.error Err.fault) :=
  ⟨rfl, rfl⟩

/-- C15, the code at the initializer sequence (1, 10), (1, 20): the constructor
calls `tree.insert(1, 20)`, which finds key 1 and returns its node without
storing the value, so the map has size 1 and `valueOf(1)` is 10, the value of
the first pair. -/
theorem treeMap_initializer_keeps_first :
    ((TreeMap.empty : TreeMap Nat Nat).insertAll [(1, 10), (1, 20)] >>= fun m =>
      pure (m.getSize, m.valueOf 1))
    = Except.ok (1, Except.ok 10) := by
  rfl

/-- C17, the code at `m[1]; m[3]; m[2]; m[4]; m[5];`: dereferencing `end()`,
`++` on `end()` and `--` on `begin()` all throw, but `--` applied to `end()`
lands on the entry with key 4, while key 5 is stored (`valueOf(5)` returns) and
is the greatest key: after the double rotation of the third call the walk of
`rebalance` in the fourth call ends at node 1 and makes it the root, so the
fifth call attaches key 5 as the right child of node 1, which is still the left
child of node 2, and the rightmost node below the guard is node 4. -/
theorem treeMap_decr_end_misses_greatest :
    ((TreeMap.empty : TreeMap Nat Nat).indexAll [1, 3, 2, 4, 5] >>= fun m =>
      m.cbegin >>= fun b =>
      m.cend >>= fun e =>
      e.decr m.tree.heap >>= fun d =>
      d.deref m.tree.heap >>= fun x =>
      pure (m.getSize, m.valueOf 5, e.deref m.tree.heap, e.incr m.tree.heap,
        b.decr m.tree.heap, x.1))
    = Except.ok (5, Except.ok 0, Except.error Err.outOfRange, Except.error Err.outOfRange,
        Except.error Err.outOfRange, 4) := by
  rfl

/-- C18: for every tree and every key for which `findKey` returns null,
`deleteKey(key)` and `TreeMap::remove(key)` throw `std::out_of_range`, and the
tree after the call is the tree before the call: the same `root`, the same
`size` and the same heap, hence every link, key and value of every node.  On an
empty tree (`size = 0`) `findKey` returns null for every key. -/
theorem deleteKey_absent_atomic [LinearOrder K] (t : AVLTree K V) (key : K) :
    (t.findKey key = .ok none →
      t.deleteKeyRun key = .ok (t, .error .outOfRange) ∧
      TreeMap.removeRun ⟨t⟩ key = .ok (⟨t⟩, .error .outOfRange) ∧
      t.deleteKey key = .error .outOfRange ∧
      TreeMap.remove ⟨t⟩ key = .error .outOfRange) ∧
    (t.size = 0 → t.findKey key = .ok none) := by
  constructor
  · intro h
    have h1 : t.deleteKeyRun key = .ok (t, .error .outOfRange) := by
      simp [AVLTree.deleteKeyRun, h, bind, Except.bind, pure, Except.pure]
    have h2 : t.deleteKey key = .error .outOfRange := by
      simp [AVLTree.deleteKey, h1, bind, Except.bind, throw, throwThe, MonadExceptOf.throw]
    exact ⟨h1, by simp [TreeMap.removeRun, h1, bind, Except.bind, pure, Except.pure], h2,
      by simp [TreeMap.remove, h2, bind, Except.bind]⟩
  · intro h0
    simp [AVLTree.findKey, h0, pure, Except.pure]

theorem deleteKey_absent_atomic_witness :
    sampleTree.findKey 7 = .ok none ∧
    (sampleTree.deleteKeyRun 7 = .ok (sampleTree, .error .outOfRange) ∧
     TreeMap.removeRun ⟨sampleTree⟩ 7 = .ok (⟨sampleTree⟩, .error .outOfRange) ∧
     sampleTree.deleteKey 7 = .error .outOfRange ∧
     TreeMap.remove ⟨sampleTree⟩ 7 = .error .outOfRange) ∧
    (AVLTree.init : AVLTree Nat Nat).size = 0 ∧
    (AVLTree.init : AVLTree Nat Nat).findKey 7 = .ok none :=
  ⟨rfl, (deleteKey_absent_atomic sampleTree 7).1 rfl, rfl,
   (deleteKey_absent_atomic (AVLTree.init : AVLTree Nat Nat) 7).2 rfl⟩

/-- C21, the code at `insert(1); insert(2); insert(3);` on the empty tree (the
guard is the cell at address 0, the three nodes are the cells 1, 2, 3): the third
call rotates left at node 1.  Afterwards the root is node 2 and its left child is
node 1, both reachable from the root, but the parent pointer of node 1 still
names the guard instead of node 2. -/
theorem treeMap_child_parent_mismatch :
    ((TreeMap.empty : TreeMap Nat Nat).insertAll [(1, 10), (2, 20), (3, 30)] >>= fun m =>
      m.tree.heap.read m.tree.root >>= fun a =>
      m.tree.heap.read a.left >>= fun b =>
      pure ((TreeMap.empty : TreeMap Nat Nat).tree.root, m.tree.root, a.key, a.left, b.key,
        b.parent))
    = Except.ok (some 0, some 2, 2, some 1, 1, some 0) := by
  rfl

/-- C23, the code at `insert(1); insert(2); insert(3); insert(0);` on the empty
tree (guard at address 0): the fourth call attaches key 0 below node 1, whose
parent pointer names the guard since the rotation of the third call, and the
rebalancing walk ends there by making node 1 the root.  The size is 4 and
`root->parent` is the guard, but `guard->left` is node 2, not the root. -/
theorem treeMap_guard_left_not_root :
    ((TreeMap.empty : TreeMap Nat Nat).insertAll [(1, 10), (2, 20), (3, 30), (0, 0)] >>= fun m =>
      m.tree.heap.read m.tree.root >>= fun r =>
      m.tree.heap.read r.parent >>= fun g =>
      m.tree.heap.read g.left >>= fun top =>
      pure ((TreeMap.empty : TreeMap Nat Nat).tree.root, m.tree.getSize, m.tree.root, r.key,
        r.parent, g.left, top.key, g.right, g.parent))
    = Except.ok (some 0, 4, some 1, 1, some 0, some 2, 2, none, none) := by
  rfl

/-- C25, the code at `insert(0)` on the tree built by `insert(1); insert(2);
insert(3);`.  That tree is height-balanced and satisfies the guard linkage: its
root is node 2, `root->parent` is the guard (address 0), `guard->left` is the
root, and `guard->right` and `guard->parent` are null.  `insert(0)` attaches the
new leaf below node 1 and starts the rebalancing walk there; the parent pointer
of node 1 names the guard, so the walk visits node 1 only and ends by setting
`root` to node 1, which is still the left child of the topmost node 2. -/
theorem rebalance_root_not_topmost :
    ((TreeMap.empty : TreeMap Nat Nat).insertAll [(1, 10), (2, 20), (3, 30)] >>= fun m =>
      m.tree.balanced >>= fun b =>
      m.tree.heap.read m.tree.root >>= fun r =>
      m.tree.heap.read r.parent >>= fun g =>
      m.tree.insert 0 0 >>= fun res =>
      res.1.heap.read res.2 >>= fun leaf =>
      res.1.heap.read res.1.root >>= fun r2 =>
      res.1.heap.read (some 2) >>= fun top =>
      pure (b, m.tree.root, r.parent, g.left, g.right, g.parent,
        leaf.key, leaf.parent, res.1.root, r2.key, r2.parent, top.key, top.left))
    = Except.ok (true, some 2, some 0, some 2, none, none,
        0, some 1, some 1, 1, some 0, 2, some 1) := by
  rfl

/-! ## Rotations on a subtree without shared cells -/

theorem scanBucket_none [DecidableEq K] (key : K) (l : List (K × V)) :
    scanBucket key l = none ↔ ∀ e ∈ l, e.1 ≠ key := by
  induction l with
  | nil => simp [scanBucket]
  | cons e rest ih =>
    by_cases h : e.1 = key
    · simp [scanBucket, h]
    · cases hs : scanBucket key rest with
      | none => simpa [scanBucket, h, hs] using ih.mp hs
      | some pos =>
        have : ¬ ∀ e ∈ rest, e.1 ≠ key := fun hall => by
          rw [ih.mpr hall] at hs; cases hs
        simp [scanBucket, h, hs]
        simpa using this

theorem scanBucket_some [DecidableEq K] (key : K) (l : List (K × V)) (pos : Nat)
    (h : scanBucket key l = some pos) :
    ∃ v, l[pos]? = some (key, v) := by
  induction l generalizing pos with
  | nil => simp [scanBucket] at h
  | cons e rest ih =>
    by_cases hk : e.1 = key
    · simp [scanBucket, hk] at h
      subst h
      exact ⟨e.2, by simp [← hk]⟩
    · cases hs : scanBucket key rest with
      | none => simp [scanBucket, hk, hs] at h
      | some q =>
        simp [scanBucket, hk, hs] at h
        subst h
        obtain ⟨v, hv⟩ := ih q hs
        exact ⟨v, by simpa using hv⟩

theorem scanBucket_first [DecidableEq K] (key : K) (l : List (K × V)) (pos : Nat)
    (h : scanBucket key l = some pos) :
    ∀ j, j < pos → ∀ e, l[j]? = some e → e.1 ≠ key := by
  induction l generalizing pos with
  | nil => simp [scanBucket] at h
  | cons e rest ih =>
    by_cases hk : e.1 = key
    · simp [scanBucket, hk] at h
      subst h
      intro j hj; omega
    · cases hs : scanBucket key rest with
      | none => simp [scanBucket, hk, hs] at h
      | some q =>
        simp [scanBucket, hk, hs] at h
        subst h
        intro j hj x hx
        cases j with
        | zero => simp at hx; subst hx; exact hk
        | succ j => exact ih q hs j (by omega) x (by simpa using hx)

theorem scanDown_it (m : HashMap K V) (n : Nat) (e : HashMap.ConstIterator)
    (h : scanDown m n = .ok e) : e.it = (m.hashTable e.index).length := by
  induction n with
  | zero =>
    simp only [scanDown] at h
    split at h
    · cases h
    · cases h; rfl
  | succ i ih =>
    simp only [scanDown] at h
    split at h
    · exact ih h
    · cases h; rfl

theorem scanDown_ok (m : HashMap K V) (n i : Nat) (hi : i ≤ n) (hne : m.hashTable i ≠ []) :
    ∃ e, scanDown m n = .ok e := by
  induction n with
  | zero =>
    have : i = 0 := by omega
    subst this
    simp [scanDown, hne]
  | succ k ih =>
    simp only [scanDown]
    split
    · rename_i hemp
      have hik : i ≤ k := by
        rcases Nat.lt_or_ge k i with hlt | hge
        · have : i = k + 1 := by omega
          subst this
          simp [hne] at hemp
        · exact hge
      exact ih hik
    · exact ⟨_, rfl⟩

theorem sum_pos_bucket (f : Nat → Nat) (n : Nat) (h : ∑ i in Finset.range n, f i ≠ 0) :
    ∃ i, i < n ∧ f i ≠ 0 := by
  by_contra hcon
  apply h
  apply Finset.sum_eq_zero
  intro i hi
  by_contra hne
  exact hcon ⟨i, Finset.mem_range.mp hi, hne⟩

theorem cend_ok (hash : K → Nat) (m : HashMap K V) (hw : HashMap.WF hash m) :
    ∃ e, m.cend = .ok e ∧ e.it = (m.hashTable e.index).length := by
  unfold HashMap.cend
  by_cases hs : m.isEmpty = true
  · simp [hs]
  · simp only [hs]
    have hsz : m.size ≠ 0 := by simpa [HashMap.isEmpty] using hs
    rw [hw.count] at hsz
    obtain ⟨i, hi, hne⟩ := sum_pos_bucket _ _ hsz
    have hne2 : m.hashTable i ≠ [] := by
      intro h; apply hne; simp [h]
    obtain ⟨e, he⟩ := scanDown_ok m (BUCKETS_NUMBER - 1) i (by omega) hne2
    exact ⟨e, by simpa using he, scanDown_it m _ e he⟩

theorem sum_replace (f : Nat → Nat) (n idx g : Nat) (h : idx < n) :
    (∑ i in Finset.range n, (if i = idx then g else f i)) + f idx
      = (∑ i in Finset.range n, f i) + g := by
  have hm : idx ∈ Finset.range n := Finset.mem_range.mpr h
  rw [← Finset.add_sum_erase _ _ hm, ← Finset.add_sum_erase (Finset.range n) f hm]
  have : ∑ x in (Finset.range n).erase idx, (if x = idx then g else f x)
      = ∑ x in (Finset.range n).erase idx, f x := by
    apply Finset.sum_congr rfl
    intro x hx
    have : x ≠ idx := (Finset.mem_erase.mp hx).1
    simp [this]
  rw [this]
  simp
  omega

theorem sum_ge_term (f : Nat → Nat) (n idx : Nat) (h : idx < n) :
    f idx ≤ ∑ i in Finset.range n, f i :=
  Finset.single_le_sum (f := f) (fun _ _ => Nat.zero_le _) (Finset.mem_range.mpr h)

theorem map_fst_setValueAt (v : V) (l : List (K × V)) (pos : Nat) :
    (setValueAt v l pos).map Prod.fst = l.map Prod.fst := by
  induction l generalizing pos with
  | nil => simp [setValueAt]
  | cons e rest ih =>
    cases pos with
    | zero => simp [setValueAt]
    | succ p => simp [setValueAt, ih]

theorem length_setValueAt (v : V) (l : List (K × V)) (pos : Nat) :
    (setValueAt v l pos).length = l.length := by
  have := congrArg List.length (map_fst_setValueAt v l pos)
  simpa using this

theorem nodup_keys_value (l : List (K × V)) (hn : (l.map Prod.fst).Nodup) (k : K) (v w : V)
    (hv : (k, v) ∈ l) (hw : (k, w) ∈ l) : v = w := by
  induction l with
  | nil => simp at hv
  | cons e rest ih =>
    simp only [List.map_cons, List.nodup_cons, List.mem_map, not_exists, not_and] at hn
    simp only [List.mem_cons] at hv hw
    rcases hv with hv | hv <;> rcases hw with hw | hw
    · rw [← hv] at hw; exact (Prod.mk.inj hw).2.symm ▸ rfl
    · exact absurd (by rw [← hv]) (hn.1 (k, w) hw)
    · exact absurd (by rw [← hw]) (hn.1 (k, v) hv)
    · exact ih hn.2 hv hw

theorem nodup_of_keys (l : List (K × V)) (hn : (l.map Prod.fst).Nodup) : l.Nodup :=
  List.Nodup.of_map _ hn


section hashed

variable [DecidableEq K] (hash : K → Nat)

omit [DecidableEq K] in
theorem wf_empty : HashMap.WF hash (HashMap.empty : HashMap K V) := by
  refine ⟨?_, ?_, ?_⟩
  · intro i e h; simp [HashMap.empty] at h
  · intro i; simp [HashMap.empty]
  · simp [HashMap.empty]

theorem index_of_some [Inhabited V] (m : HashMap K V) (key : K) (pos : Nat)
    (hs : scanBucket key (m.hashTable (hash key % BUCKETS_NUMBER)) = some pos) :
    HashMap.index hash m key = (m, (hash key % BUCKETS_NUMBER, pos)) := by
  simp [HashMap.index, hs]

theorem index_of_none [Inhabited V] (m : HashMap K V) (key : K)
    (hs : scanBucket key (m.hashTable (hash key % BUCKETS_NUMBER)) = none) :
    HashMap.index hash m key =
      ({ hashTable := fun i => if i = hash key % BUCKETS_NUMBER
                        then m.hashTable (hash key % BUCKETS_NUMBER) ++ [(key, default)]
                        else m.hashTable i,
         size := m.size + 1 },
       (hash key % BUCKETS_NUMBER, (m.hashTable (hash key % BUCKETS_NUMBER)).length)) := by
  simp [HashMap.index, hs]

theorem wf_index [Inhabited V] (m : HashMap K V) (key : K) (hw : HashMap.WF hash m) :
    HashMap.WF hash (HashMap.index hash m key).1 := by
  cases hs : scanBucket key (m.hashTable (hash key % BUCKETS_NUMBER)) with
  | some pos => rw [index_of_some hash m key pos hs]; exact hw
  | none =>
    rw [index_of_none hash m key hs]
    have hno := (scanBucket_none key _).mp hs
    refine ⟨?_, ?_, ?_⟩
    · intro i e h
      simp only at h
      split at h
      · rename_i hi
        rcases List.mem_append.mp h with h | h
        · exact hw.home i e (hi ▸ h)
        · simp at h; subst h; exact hi.symm
      · exact hw.home i e h
    · intro i
      simp only
      split
      · rw [List.map_append, List.nodup_append]
        refine ⟨hw.nodup _, by simp, ?_⟩
        intro a ha hb
        simp at hb
        subst hb
        obtain ⟨e, he, hk⟩ := List.mem_map.mp ha
        exact hno e he hk
      · exact hw.nodup i
    · simp only
      have hlt : hash key % BUCKETS_NUMBER < BUCKETS_NUMBER := Nat.mod_lt _ (by decide)
      have := sum_replace (fun i => (m.hashTable i).length) BUCKETS_NUMBER
        (hash key % BUCKETS_NUMBER) ((m.hashTable (hash key % BUCKETS_NUMBER)).length + 1) hlt
      have h2 : (∑ i in Finset.range BUCKETS_NUMBER,
          (if i = hash key % BUCKETS_NUMBER then
            m.hashTable (hash key % BUCKETS_NUMBER) ++ [(key, default)] else m.hashTable i).length)
          = ∑ i in Finset.range BUCKETS_NUMBER,
            (if i = hash key % BUCKETS_NUMBER then
              (m.hashTable (hash key % BUCKETS_NUMBER)).length + 1 else (m.hashTable i).length) := by
        apply Finset.sum_congr rfl
        intro i _
        split <;> simp
      rw [h2, hw.count]
      simp only at this
      omega


omit [DecidableEq K] in
theorem wf_setValue (m : HashMap K V) (a p : Nat) (v : V) (hw : HashMap.WF hash m) :
    HashMap.WF hash
      { hashTable := fun i => if i = a then setValueAt v (m.hashTable i) p else m.hashTable i,
        size := m.size } := by
  refine ⟨?_, ?_, ?_⟩
  · intro i e h
    simp only at h
    split at h
    · have h1 : e.1 ∈ (setValueAt v (m.hashTable i) p).map Prod.fst := List.mem_map.mpr ⟨e, h, rfl⟩
      rw [map_fst_setValueAt] at h1
      obtain ⟨x, hx, hk⟩ := List.mem_map.mp h1
      rw [← hk]
      exact hw.home i x hx
    · exact hw.home i e h
  · intro i
    simp only
    split
    · rw [map_fst_setValueAt]; exact hw.nodup i
    · exact hw.nodup i
  · simp only
    rw [hw.count]
    apply Finset.sum_congr rfl
    intro i _
    split
    · rw [length_setValueAt]
    · rfl

theorem wf_assign [Inhabited V] (m : HashMap K V) (key : K) (v : V) (hw : HashMap.WF hash m) :
    HashMap.WF hash (HashMap.assign hash m key v) :=
  wf_setValue hash _ _ _ v (wf_index hash m key hw)

omit [DecidableEq K] in
theorem size_pos_of_mem (m : HashMap K V) (hw : HashMap.WF hash m) (i : Nat) (e : K × V)
    (h : e ∈ m.hashTable i) : 0 < m.size := by
  have hi : i < BUCKETS_NUMBER := by
    rw [← hw.home i e h]; exact Nat.mod_lt _ (by decide)
  have := sum_ge_term (fun i => (m.hashTable i).length) BUCKETS_NUMBER i hi
  rw [hw.count]
  have hl : 0 < (m.hashTable i).length := List.length_pos_of_mem h
  simp only at this
  omega

theorem remove_present [DecidableEq V] (m : HashMap K V) (key : K) (v : V) (i : Nat)
    (hw : HashMap.WF hash m) (hmem : (key, v) ∈ m.hashTable i) :
    HashMap.remove hash m key =
      ({ hashTable := fun j => if j = hash key % BUCKETS_NUMBER
          then (m.hashTable (hash key % BUCKETS_NUMBER)).filter (fun y => y ≠ (key, v))
          else m.hashTable j,
         size := m.size - 1 }, .ok ()) := by
  have hi : hash key % BUCKETS_NUMBER = i := hw.home i _ hmem
  subst hi
  have hsz := size_pos_of_mem hash m hw _ _ hmem
  have hemp : m.isEmpty = false := by
    simp [HashMap.isEmpty]; omega
  cases hs : scanBucket key (m.hashTable (hash key % BUCKETS_NUMBER)) with
  | none =>
    exact absurd rfl ((scanBucket_none key _).mp hs _ hmem)
  | some pos =>
    obtain ⟨w, hw2⟩ := scanBucket_some key _ pos hs
    have hwv : w = v :=
      nodup_keys_value _ (hw.nodup _) key w v (List.getElem?_mem hw2) hmem
    subst hwv
    obtain ⟨e, he, heit⟩ := cend_ok hash m hw
    have hlt : pos < (m.hashTable (hash key % BUCKETS_NUMBER)).length := by
      rcases Nat.lt_or_ge pos (m.hashTable (hash key % BUCKETS_NUMBER)).length with h | h
      · exact h
      · rw [List.getElem?_eq_none h] at hw2; cases hw2
    have hne : (⟨hash key % BUCKETS_NUMBER, pos⟩ : HashMap.ConstIterator) ≠ e := by
      intro h
      rw [← h] at heit
      simp only at heit
      omega
    have hfind : HashMap.find hash m key = .ok ⟨hash key % BUCKETS_NUMBER, pos⟩ := by
      simp [HashMap.find, hemp, hs]
    have hderef : HashMap.ConstIterator.deref m ⟨hash key % BUCKETS_NUMBER, pos⟩ = .ok (key, w) := by
      simp [HashMap.ConstIterator.deref, hw2, Nat.ne_of_lt hlt]
    simp [HashMap.remove, hfind, he, hne, hderef]

theorem remove_absent [DecidableEq V] (m : HashMap K V) (key : K)
    (hw : HashMap.WF hash m) (hno : ¬ m.Stored key) :
    HashMap.remove hash m key = (m, .error .outOfRange) := by
  obtain ⟨e, he, _⟩ := cend_ok hash m hw
  have hfind : HashMap.find hash m key = .ok e := by
    unfold HashMap.find
    by_cases hemp : m.isEmpty = true
    · simp [hemp, he]
    · have hs : scanBucket key (m.hashTable (hash key % BUCKETS_NUMBER)) = none := by
        apply (scanBucket_none key _).mpr
        intro x hx hk
        obtain ⟨a, b⟩ := x
        simp only at hk
        subst hk
        exact hno ⟨_, b, hx⟩
      simp [hemp, hs, he]
  simp [HashMap.remove, hfind, he]

theorem wf_filter [DecidableEq V] (m : HashMap K V) (a : Nat) (x : K × V)
    (hw : HashMap.WF hash m) (hx : x ∈ m.hashTable a) :
    HashMap.WF hash
      { hashTable := fun j => if j = a then (m.hashTable a).filter (fun y => y ≠ x)
                              else m.hashTable j,
        size := m.size - 1 } := by
  have ha : a < BUCKETS_NUMBER := by
    rw [← hw.home a x hx]; exact Nat.mod_lt _ (by decide)
  refine ⟨?_, ?_, ?_⟩
  · intro i e h
    simp only at h
    split at h
    · rename_i hi
      subst hi
      exact hw.home _ e (List.mem_of_mem_filter h)
    · exact hw.home i e h
  · intro i
    simp only
    split
    · exact List.Nodup.sublist (List.Sublist.map _ (List.filter_sublist _)) (hw.nodup a)
    · exact hw.nodup i
  · simp only
    have hnd : (m.hashTable a).Nodup := nodup_of_keys _ (hw.nodup a)
    have hlen : ((m.hashTable a).filter (fun y => y ≠ x)).length + 1 = (m.hashTable a).length := by
      have hf : (m.hashTable a).filter (fun y => decide (y ≠ x))
          = (m.hashTable a).filter (fun y => y != x) := by
        apply List.filter_congr
        intro y _
        by_cases hyx : y = x <;> simp [hyx]
      rw [hf, ← List.Nodup.erase_eq_filter hnd x, List.length_erase_of_mem hx]
      have := List.length_pos_of_mem hx
      omega
    have := sum_replace (fun i => (m.hashTable i).length) BUCKETS_NUMBER a
      (((m.hashTable a).filter (fun y => y ≠ x)).length) ha
    have h2 : (∑ i in Finset.range BUCKETS_NUMBER,
        (if i = a then (m.hashTable a).filter (fun y => y ≠ x) else m.hashTable i).length)
        = ∑ i in Finset.range BUCKETS_NUMBER,
          (if i = a then ((m.hashTable a).filter (fun y => y ≠ x)).length
            else (m.hashTable i).length) := by
      apply Finset.sum_congr rfl
      intro i _
      split <;> rfl
    rw [h2, hw.count]
    simp only at this
    omega

theorem wf_remove [DecidableEq V] (m : HashMap K V) (key : K) (hw : HashMap.WF hash m) :
    HashMap.WF hash (HashMap.remove hash m key).1 := by
  by_cases hst : m.Stored key
  · obtain ⟨i, v, hmem⟩ := hst
    rw [remove_present hash m key v i hw hmem]
    have hi : hash key % BUCKETS_NUMBER = i := hw.home i _ hmem
    exact wf_filter hash m _ (key, v) hw (hi ▸ hmem)
  · rw [remove_absent hash m key hw hst]
    exact hw

omit [DecidableEq K] in
theorem deref_mem (m : HashMap K V) (it : HashMap.ConstIterator) (x : K × V)
    (h : it.deref m = .ok x) : x ∈ m.hashTable it.index := by
  unfold HashMap.ConstIterator.deref at h
  split at h
  · cases h
  · split at h
    · rename_i e he
      cases h
      exact List.getElem?_mem he
    · cases h

theorem wf_removeAt [DecidableEq V] (m : HashMap K V) (it : HashMap.ConstIterator)
    (hw : HashMap.WF hash m) : HashMap.WF hash (HashMap.removeAt m it).1 := by
  obtain ⟨e, he, _⟩ := cend_ok hash m hw
  unfold HashMap.removeAt
  rw [he]
  simp only
  split
  · exact hw
  · cases hd : it.deref m with
    | error err => exact hw
    | ok x => exact wf_filter hash m _ x hw (deref_mem m it x hd)

theorem reachable_wf [DecidableEq V] [Inhabited V] (m : HashMap K V)
    (h : HashMap.Reachable hash m) : HashMap.WF hash m := by
  induction h with
  | empty => exact wf_empty hash
  | index m key _ ih => exact wf_index hash m key ih
  | assign m key v _ ih => exact wf_assign hash m key v ih
  | remove m key _ ih => exact wf_remove hash m key ih
  | removeAt m it _ _ _ ih => exact wf_removeAt hash m it ih


theorem valueOf_present (m : HashMap K V) (key : K) (v : V) (i : Nat)
    (hw : HashMap.WF hash m) (hmem : (key, v) ∈ m.hashTable i) :
    HashMap.valueOf hash m key = .ok v := by
  have hi : hash key % BUCKETS_NUMBER = i := hw.home i _ hmem
  subst hi
  have hsz := size_pos_of_mem hash m hw _ _ hmem
  have hemp : m.isEmpty = false := by
    simp [HashMap.isEmpty]; omega
  have hne : (m.hashTable (hash key % BUCKETS_NUMBER)).isEmpty = false := by
    cases hl : m.hashTable (hash key % BUCKETS_NUMBER) with
    | nil => rw [hl] at hmem; cases hmem
    | cons _ _ => rfl
  cases hs : scanBucket key (m.hashTable (hash key % BUCKETS_NUMBER)) with
  | none => exact absurd rfl ((scanBucket_none key _).mp hs _ hmem)
  | some pos =>
    obtain ⟨w, hw2⟩ := scanBucket_some key _ pos hs
    have hwv : w = v :=
      nodup_keys_value _ (hw.nodup _) key w v (List.getElem?_mem hw2) hmem
    subst hwv
    simp [HashMap.valueOf, hemp, hne, hs, hw2]

theorem valueOf_absent (m : HashMap K V) (key : K) (hno : ¬ m.Stored key) :
    HashMap.valueOf hash m key = .error .outOfRange := by
  have hs : scanBucket key (m.hashTable (hash key % BUCKETS_NUMBER)) = none := by
    apply (scanBucket_none key _).mpr
    intro x hx hk
    obtain ⟨a, b⟩ := x
    simp only at hk
    subst hk
    exact hno ⟨_, b, hx⟩
  simp [HashMap.valueOf, hs]

/-- C8: on every map reachable by `operator[]`, assignment and `remove`, and for
every key, `valueOf(key)` throws `std::out_of_range` exactly when no entry with
that key is stored (in particular whenever the map is empty), and when an
entry `(key, v)` is stored it returns `v`; `valueOf` only reads the map. -/
theorem hashMap_valueOf_spec [DecidableEq V] [Inhabited V] (m : HashMap K V) (key : K)
    (hr : HashMap.Reachable hash m) :
    (HashMap.valueOf hash m key = .error .outOfRange ↔ ¬ m.Stored key) ∧
    (∀ i v, (key, v) ∈ m.hashTable i → HashMap.valueOf hash m key = .ok v) ∧
    (m.isEmpty = true → HashMap.valueOf hash m key = .error .outOfRange) := by
  have hw := reachable_wf hash m hr
  refine ⟨⟨?_, valueOf_absent hash m key⟩, ?_, ?_⟩
  · rintro h ⟨i, v, hmem⟩
    rw [valueOf_present hash m key v i hw hmem] at h
    cases h
  · intro i v hmem
    exact valueOf_present hash m key v i hw hmem
  · intro he
    simp [HashMap.valueOf, he]

/-- C6: `operator[]` is return-or-insert, for every map and key.  If the bucket
`hash(key) mod BUCKETS_NUMBER` holds an entry with the key, the call returns the
map unchanged and a reference to the value of the first such entry; otherwise
it appends `(key, default)` at the end of exactly that bucket, adds one to
`size`, leaves every other bucket as it was, and returns a reference to the new
slot, which holds the default value. -/
theorem hashMap_index_spec [Inhabited V] (m : HashMap K V) (key : K) :
    ((∃ v, (key, v) ∈ m.hashTable (hash key % BUCKETS_NUMBER)) →
      (HashMap.index hash m key).1 = m ∧
      (HashMap.index hash m key).2.1 = hash key % BUCKETS_NUMBER ∧
      (∃ v, (m.hashTable (hash key % BUCKETS_NUMBER))[(HashMap.index hash m key).2.2]? = some (key, v)
        ∧ HashMap.slotValue (HashMap.index hash m key).1 (HashMap.index hash m key).2 = some v) ∧
      (∀ j, j < (HashMap.index hash m key).2.2 →
        ∀ e, (m.hashTable (hash key % BUCKETS_NUMBER))[j]? = some e → e.1 ≠ key)) ∧
    ((∀ v, (key, v) ∉ m.hashTable (hash key % BUCKETS_NUMBER)) →
      (HashMap.index hash m key).1.hashTable (hash key % BUCKETS_NUMBER)
        = m.hashTable (hash key % BUCKETS_NUMBER) ++ [(key, default)] ∧
      (HashMap.index hash m key).1.size = m.size + 1 ∧
      (∀ j, j ≠ hash key % BUCKETS_NUMBER →
        (HashMap.index hash m key).1.hashTable j = m.hashTable j) ∧
      (HashMap.index hash m key).2
        = (hash key % BUCKETS_NUMBER, (m.hashTable (hash key % BUCKETS_NUMBER)).length) ∧
      HashMap.slotValue (HashMap.index hash m key).1 (HashMap.index hash m key).2
        = some default) := by
  constructor
  · rintro ⟨v, hmem⟩
    cases hs : scanBucket key (m.hashTable (hash key % BUCKETS_NUMBER)) with
    | none => exact absurd rfl ((scanBucket_none key _).mp hs _ hmem)
    | some pos =>
      rw [index_of_some hash m key pos hs]
      obtain ⟨w, hw2⟩ := scanBucket_some key _ pos hs
      refine ⟨rfl, rfl, ⟨w, hw2, ?_⟩, scanBucket_first key _ pos hs⟩
      simp [HashMap.slotValue, hw2]
  · intro hno
    have hs : scanBucket key (m.hashTable (hash key % BUCKETS_NUMBER)) = none := by
      apply (scanBucket_none key _).mpr
      intro x hx hk
      obtain ⟨a, b⟩ := x
      simp only at hk
      subst hk
      exact hno b hx
    rw [index_of_none hash m key hs]
    refine ⟨by simp, rfl, ?_, rfl, ?_⟩
    · intro j hj; simp [hj]
    · simp [HashMap.slotValue]

/-- C7: on every map reachable by `operator[]`, assignment and `remove`:
`remove(key)` throws `std::out_of_range` and leaves the map as it was when the
key is not stored; when it is stored with value `v` the call succeeds, `size` drops
by one, the bucket of the key loses exactly the entry `(key, v)`, every other
bucket is unchanged, the key is no longer stored, `find(key)` equals `end()`,
and `valueOf` of every other key gives what it gave before. -/
theorem hashMap_remove_spec [DecidableEq V] [Inhabited V] (m : HashMap K V) (key : K)
    (hr : HashMap.Reachable hash m) :
    (¬ m.Stored key → HashMap.remove hash m key = (m, .error .outOfRange)) ∧
    (m.Stored key → ∃ m2 v,
      HashMap.remove hash m key = (m2, .ok ()) ∧
      m2.size + 1 = m.size ∧
      (key, v) ∈ m.hashTable (hash key % BUCKETS_NUMBER) ∧
      m2.hashTable (hash key % BUCKETS_NUMBER)
        = (m.hashTable (hash key % BUCKETS_NUMBER)).erase (key, v) ∧
      (∀ j, j ≠ hash key % BUCKETS_NUMBER → m2.hashTable j = m.hashTable j) ∧
      ¬ m2.Stored key ∧
      (∃ e, m2.cend = .ok e ∧ HashMap.find hash m2 key = .ok e) ∧
      (∀ k2, k2 ≠ key → HashMap.valueOf hash m2 k2 = HashMap.valueOf hash m k2)) := by
  have hw := reachable_wf hash m hr
  refine ⟨remove_absent hash m key hw, ?_⟩
  rintro ⟨i, v, hmem⟩
  have hrem := remove_present hash m key v i hw hmem
  have hi : hash key % BUCKETS_NUMBER = i := hw.home i _ hmem
  subst hi
  have hnd : (m.hashTable (hash key % BUCKETS_NUMBER)).Nodup := nodup_of_keys _ (hw.nodup _)
  have hf : (m.hashTable (hash key % BUCKETS_NUMBER)).filter (fun y => decide (y ≠ (key, v)))
      = (m.hashTable (hash key % BUCKETS_NUMBER)).erase (key, v) := by
    rw [List.Nodup.erase_eq_filter hnd]
    apply List.filter_congr
    intro y _
    by_cases hyx : y = (key, v) <;> simp [hyx]
  rw [hf] at hrem
  have hw2 := wf_remove hash m key hw
  rw [hrem] at hw2
  have hsz := size_pos_of_mem hash m hw _ _ hmem
  have hno2 : ¬ HashMap.Stored
      ({ hashTable := fun j => if j = hash key % BUCKETS_NUMBER
          then (m.hashTable (hash key % BUCKETS_NUMBER)).erase (key, v) else m.hashTable j,
         size := m.size - 1 } : HashMap K V) key := by
    rintro ⟨j, w, hjw⟩
    simp only at hjw
    split at hjw
    · have h1 := (List.Nodup.mem_erase_iff hnd).mp hjw
      have : w = v := nodup_keys_value _ (hw.nodup _) key w v h1.2 hmem
      subst this
      exact h1.1 rfl
    · rename_i hj
      exact hj (hw.home j _ hjw).symm
  refine ⟨_, v, hrem, ?_, hmem, by simp, ?_, hno2, ?_, ?_⟩
  · simp only; omega
  · intro j hj; simp [hj]
  · obtain ⟨e, he, _⟩ := cend_ok hash _ hw2
    refine ⟨e, he, ?_⟩
    have hs : scanBucket key (m.hashTable (hash key % BUCKETS_NUMBER) |>.erase (key, v)) = none := by
      apply (scanBucket_none key _).mpr
      intro x hx hk
      obtain ⟨a, b⟩ := x
      simp only at hk
      subst hk
      apply hno2
      exact ⟨hash a % BUCKETS_NUMBER, b, by simp only [if_true]; exact hx⟩
    unfold HashMap.find
    split
    · exact he
    · simp only [if_true, hs]
      exact he
  · intro k2 hk2
    by_cases hst : m.Stored k2
    · obtain ⟨j, w, hjw⟩ := hst
      rw [valueOf_present hash m k2 w j hw hjw]
      apply valueOf_present hash _ k2 w j hw2
      simp only
      split
      · rename_i hj
        subst hj
        exact (List.mem_erase_of_ne (by intro h; exact hk2 (Prod.mk.inj h).1)).mpr hjw
      · exact hjw
    · rw [valueOf_absent hash m k2 hst]
      apply valueOf_absent
      rintro ⟨j, w, hjw⟩
      apply hst
      simp only at hjw
      split at hjw
      · exact ⟨_, w, List.mem_of_mem_erase hjw⟩
      · exact ⟨j, w, hjw⟩


end hashed

/-! ### The theorems at the two-key map with a collision -/

theorem collidingMap_table (i : Nat) :
    collidingMap.hashTable i = if i = 1 then [(1, 0), (64001, 0)] else [] := by
  simp [collidingMap, HashMap.index, HashMap.empty, scanBucket, natHash, BUCKETS_NUMBER]
  split <;> rfl

theorem collidingMap_reachable : HashMap.Reachable natHash collidingMap :=
  HashMap.Reachable.index _ 64001 (HashMap.Reachable.index _ 1 HashMap.Reachable.empty)

theorem collidingMap_stored : collidingMap.Stored 1 := ⟨1, 0, by decide⟩

theorem collidingMap_not_stored : ¬ collidingMap.Stored 2 := by
  rintro ⟨i, v, h⟩
  rw [collidingMap_table] at h
  split at h <;> simp at h

theorem hashMap_index_spec_witness :
    (∃ v, (1, v) ∈ collidingMap.hashTable (natHash 1 % BUCKETS_NUMBER)) ∧
    (HashMap.index natHash collidingMap 1).1 = collidingMap ∧
    (∀ v, (2, v) ∉ collidingMap.hashTable (natHash 2 % BUCKETS_NUMBER)) ∧
    (HashMap.index natHash collidingMap 2).1.size = collidingMap.size + 1 :=
  ⟨⟨0, by decide⟩,
   ((hashMap_index_spec natHash collidingMap 1).1 ⟨0, by decide⟩).1,
   fun v h => collidingMap_not_stored ⟨_, v, h⟩,
   ((hashMap_index_spec natHash collidingMap 2).2
      (fun v h => collidingMap_not_stored ⟨_, v, h⟩)).2.1⟩

theorem hashMap_remove_spec_witness :
    HashMap.Reachable natHash collidingMap ∧
    collidingMap.Stored 1 ∧
    (∃ m2 v,
      HashMap.remove natHash collidingMap 1 = (m2, .ok ()) ∧
      m2.size + 1 = collidingMap.size ∧
      (1, v) ∈ collidingMap.hashTable (natHash 1 % BUCKETS_NUMBER) ∧
      m2.hashTable (natHash 1 % BUCKETS_NUMBER)
        = (collidingMap.hashTable (natHash 1 % BUCKETS_NUMBER)).erase (1, v) ∧
      (∀ j, j ≠ natHash 1 % BUCKETS_NUMBER → m2.hashTable j = collidingMap.hashTable j) ∧
      ¬ m2.Stored 1 ∧
      (∃ e, m2.cend = .ok e ∧ HashMap.find natHash m2 1 = .ok e) ∧
      (∀ k2, k2 ≠ 1 → HashMap.valueOf natHash m2 k2 = HashMap.valueOf natHash collidingMap k2)) :=
  ⟨collidingMap_reachable, collidingMap_stored,
   (hashMap_remove_spec natHash collidingMap 1 collidingMap_reachable).2 collidingMap_stored⟩

theorem hashMap_valueOf_spec_witness :
    HashMap.Reachable natHash collidingMap ∧
    ((HashMap.valueOf natHash collidingMap 64001 = .error .outOfRange
        ↔ ¬ collidingMap.Stored 64001) ∧
     (∀ i v, (64001, v) ∈ collidingMap.hashTable i →
        HashMap.valueOf natHash collidingMap 64001 = .ok v) ∧
     (collidingMap.isEmpty = true →
        HashMap.valueOf natHash collidingMap 64001 = .error .outOfRange)) :=
  ⟨collidingMap_reachable, hashMap_valueOf_spec natHash collidingMap 64001 collidingMap_reachable⟩

/-! ## The hash table: iteration, equality, and counting -/

theorem mem_bucketsFrom (m : HashMap K V) (n i : Nat) (e : K × V) :
    e ∈ bucketsFrom m n i ↔ ∃ k, i ≤ k ∧ k < i + n ∧ e ∈ m.hashTable k := by
  induction n generalizing i with
  | zero =>
    simp only [bucketsFrom, List.not_mem_nil, false_iff]
    rintro ⟨k, h1, h2, _⟩
    omega
  | succ n ih =>
    simp only [bucketsFrom, List.mem_append, ih]
    constructor
    · rintro (h | ⟨k, h1, h2, h3⟩)
      · exact ⟨i, Nat.le_refl _, by omega, h⟩
      · exact ⟨k, by omega, by omega, h3⟩
    · rintro ⟨k, h1, h2, h3⟩
      rcases Nat.eq_or_lt_of_le h1 with h | h
      · left; rw [h]; exact h3
      · right; exact ⟨k, by omega, by omega, h3⟩

theorem length_bucketsFrom (m : HashMap K V) (n i : Nat) :
    (bucketsFrom m n i).length = ∑ k in Finset.range n, (m.hashTable (i + k)).length := by
  induction n generalizing i with
  | zero => simp [bucketsFrom]
  | succ n ih =>
    rw [bucketsFrom, List.length_append, ih, Finset.sum_range_succ']
    have : ∀ k, i + 1 + k = i + (k + 1) := fun k => by omega
    simp only [this, Nat.add_zero]
    omega

theorem bucketsFrom_eq_nil (m : HashMap K V) (n i : Nat)
    (h : ∀ k, i ≤ k → k < i + n → m.hashTable k = []) : bucketsFrom m n i = [] := by
  induction n generalizing i with
  | zero => rfl
  | succ n ih =>
    rw [bucketsFrom, h i (Nat.le_refl _) (by omega), List.nil_append]
    exact ih (i + 1) (fun k h1 h2 => h k (by omega) (by omega))

theorem scanUp_none (m : HashMap K V) (n i : Nat) (h : scanUp m n i = none) :
    ∀ k, i ≤ k → k < i + n → m.hashTable k = [] := by
  induction n generalizing i with
  | zero => intro k h1 h2; omega
  | succ n ih =>
    simp only [scanUp] at h
    split at h
    · rename_i hemp
      intro k h1 h2
      rcases Nat.eq_or_lt_of_le h1 with hk | hk
      · rw [← hk]; exact List.isEmpty_iff.mp hemp
      · exact ih (i + 1) h k (by omega) (by omega)
    · cases h

theorem scanUp_some (m : HashMap K V) (n i j : Nat) (h : scanUp m n i = some j) :
    m.hashTable j ≠ [] ∧ i ≤ j ∧ j < i + n ∧
      bucketsFrom m n i = m.hashTable j ++ bucketsFrom m (i + n - (j + 1)) (j + 1) := by
  induction n generalizing i with
  | zero => simp [scanUp] at h
  | succ n ih =>
    simp only [scanUp] at h
    split at h
    · rename_i hemp
      obtain ⟨h1, h2, h3, h4⟩ := ih (i + 1) h
      refine ⟨h1, by omega, by omega, ?_⟩
      rw [bucketsFrom, List.isEmpty_iff.mp hemp, List.nil_append, h4]
      have : i + 1 + n = i + (n + 1) := by omega
      rw [this]
    · rename_i hne
      have hij : i = j := by injection h
      subst hij
      refine ⟨?_, Nat.le_refl _, by omega, ?_⟩
      · intro hnil; apply hne; rw [hnil]; rfl
      · rw [bucketsFrom]
        have : i + (n + 1) - (i + 1) = n := by omega
        rw [this]

theorem scanDown_last (m : HashMap K V) (n i : Nat) (hi : i ≤ n) (hne : m.hashTable i ≠ [])
    (hall : ∀ k, i < k → k ≤ n → m.hashTable k = []) :
    scanDown m n = .ok ⟨i, (m.hashTable i).length⟩ := by
  induction n with
  | zero =>
    have : i = 0 := by omega
    subst this
    simp [scanDown, hne]
  | succ n ih =>
    rcases Nat.eq_or_lt_of_le hi with h | h
    · subst h
      simp [scanDown, hne]
    · have hemp : m.hashTable (n + 1) = [] := hall (n + 1) h (Nat.le_refl _)
      simp only [scanDown, hemp, List.isEmpty_nil, if_true]
      exact ih (by omega) (fun k h1 h2 => hall k h1 (by omega))

theorem scanDown_all_empty (m : HashMap K V) (n : Nat)
    (hall : ∀ k, k ≤ n → m.hashTable k = []) : scanDown m n = .error .fault := by
  induction n with
  | zero => simp [scanDown, hall 0 (Nat.le_refl _)]
  | succ n ih =>
    simp only [scanDown, hall (n + 1) (Nat.le_refl _), List.isEmpty_nil, if_true]
    exact ih (fun k hk => hall k (by omega))

theorem all_empty_of_size_zero (hash : K → Nat) (m : HashMap K V) (hw : HashMap.WF hash m)
    (hs : m.size = 0) (i : Nat) : m.hashTable i = [] := by
  cases hl : m.hashTable i with
  | nil => rfl
  | cons x rest =>
    have := size_pos_of_mem hash m hw i x (by rw [hl]; exact List.mem_cons_self _ _)
    omega

theorem cend_it (hash : K → Nat) (m : HashMap K V) (hw : HashMap.WF hash m)
    (e : HashMap.ConstIterator) (he : m.cend = .ok e) :
    e.it = (m.hashTable e.index).length := by
  obtain ⟨e2, he2, h⟩ := cend_ok hash m hw
  rw [he] at he2
  cases he2
  exact h

theorem cend_of_last (hash : K → Nat) (m : HashMap K V) (hw : HashMap.WF hash m) (i : Nat)
    (hi : i < BUCKETS_NUMBER) (hne : m.hashTable i ≠ [])
    (hall : ∀ k, i < k → k < BUCKETS_NUMBER → m.hashTable k = []) :
    m.cend = .ok ⟨i, (m.hashTable i).length⟩ := by
  obtain ⟨x, hx⟩ := List.exists_mem_of_ne_nil _ hne
  have hsz := size_pos_of_mem hash m hw i x hx
  have hemp : m.isEmpty = false := by
    simp [HashMap.isEmpty]; omega
  unfold HashMap.cend
  simp only [hemp]
  exact scanDown_last m (BUCKETS_NUMBER - 1) i (by omega) hne (fun k h1 h2 => hall k h1 (by omega))

theorem at_nil (m : HashMap K V) (e c : HashMap.ConstIterator) (h : m.At e c []) : c = e := by
  rcases h with ⟨h, _⟩ | ⟨_, hit, hl⟩
  · exact h
  · exfalso
    have := congrArg List.length hl
    simp only [List.length_nil, List.length_append, List.length_drop] at this
    omega

theorem at_step (hash : K → Nat) (m : HashMap K V) (hw : HashMap.WF hash m)
    (e : HashMap.ConstIterator) (he : m.cend = .ok e) (c : HashMap.ConstIterator)
    (x : K × V) (l : List (K × V)) (h : m.At e c (x :: l)) :
    c ≠ e ∧ c.deref m = .ok x ∧ ∃ c2, c.incr m = .ok c2 ∧ m.At e c2 l := by
  rcases h with ⟨_, h⟩ | ⟨hidx, hit, hl⟩
  · cases h
  have heit := cend_it hash m hw e he
  rw [List.drop_eq_getElem_cons hit, List.cons_append] at hl
  injection hl with hx hl
  have hget : (m.hashTable c.index)[c.it]? = some x := by
    rw [List.getElem?_eq_getElem hit, hx]
  have hne : c.it ≠ (m.hashTable c.index).length := Nat.ne_of_lt hit
  refine ⟨?_, ?_, ?_⟩
  · intro hce
    rw [← hce] at heit
    exact hne heit
  · simp [HashMap.ConstIterator.deref, hne, hget]
  · unfold HashMap.ConstIterator.incr
    simp only [hne, if_false]
    by_cases hlast : c.it + 1 = (m.hashTable c.index).length
    · simp only [hlast, if_true]
      have hdrop : (m.hashTable c.index).drop (c.it + 1) = [] := by
        rw [hlast]; exact List.drop_length _
      rw [hdrop, List.nil_append] at hl
      cases hs : scanUp m (BUCKETS_NUMBER - (c.index + 1)) (c.index + 1) with
      | none =>
        have hall := scanUp_none m _ _ hs
        have hnil := bucketsFrom_eq_nil m _ _ hall
        have hne2 : m.hashTable c.index ≠ [] := by
          intro h0; rw [h0] at hit; simp at hit
        have hce := cend_of_last hash m hw c.index hidx hne2
          (fun k h1 h2 => hall k (by omega) (by omega))
        rw [he] at hce
        injection hce with hce
        refine ⟨_, rfl, Or.inl ⟨?_, ?_⟩⟩
        · rw [hce]
        · rw [hl, hnil]
      | some j =>
        obtain ⟨h1, h2, h3, h4⟩ := scanUp_some m _ _ j hs
        have hj : j < BUCKETS_NUMBER := by omega
        refine ⟨_, rfl, Or.inr ⟨hj, ?_, ?_⟩⟩
        · exact List.length_pos.mpr h1
        · simp only [List.drop_zero]
          rw [hl, h4]
          have : c.index + 1 + (BUCKETS_NUMBER - (c.index + 1)) - (j + 1)
              = BUCKETS_NUMBER - (j + 1) := by omega
          rw [this]
    · simp only [hlast, if_false]
      exact ⟨_, rfl, Or.inr ⟨hidx, by simp only; omega, hl⟩⟩

theorem at_begin (hash : K → Nat) (m : HashMap K V) (hw : HashMap.WF hash m)
    (e : HashMap.ConstIterator) (he : m.cend = .ok e) : m.At e m.cbegin m.entries := by
  by_cases hemp : m.isEmpty = true
  · have hs : m.size = 0 := by simpa [HashMap.isEmpty] using hemp
    have hall := all_empty_of_size_zero hash m hw hs
    left
    constructor
    · simp only [HashMap.cend, hemp, if_true, hall 0, List.length_nil] at he
      injection he with he
      simp [HashMap.cbegin, hemp, ← he]
    · exact bucketsFrom_eq_nil m _ _ (fun k _ _ => hall k)
  · simp only [HashMap.cbegin, hemp]
    cases hs : scanUp m BUCKETS_NUMBER 0 with
    | none =>
      exfalso
      have hall := scanUp_none m _ _ hs
      apply hemp
      have : m.size = 0 := by
        rw [hw.count]
        apply Finset.sum_eq_zero
        intro i hi
        rw [hall i (Nat.zero_le _) (by simpa using Finset.mem_range.mp hi)]
        rfl
      simp [HashMap.isEmpty, this]
    | some i =>
      obtain ⟨h1, _, h3, h4⟩ := scanUp_some m _ _ i hs
      right
      refine ⟨by simpa using h3, List.length_pos.mpr h1, ?_⟩
      simp only [List.drop_zero, HashMap.entries]
      rw [h4]
      simp

theorem traverseLoop_at (hash : K → Nat) (m : HashMap K V) (hw : HashMap.WF hash m)
    (e : HashMap.ConstIterator) (he : m.cend = .ok e) (l : List (K × V)) :
    ∀ (n : Nat) (c : HashMap.ConstIterator), m.At e c l → l.length < n →
      HashMap.traverseLoop m e n c = .ok l := by
  induction l with
  | nil =>
    intro n c h hn
    cases n with
    | zero => omega
    | succ n => simp [HashMap.traverseLoop, at_nil m e c h, pure, Except.pure]
  | cons x l ih =>
    intro n c h hn
    cases n with
    | zero => omega
    | succ n =>
      obtain ⟨hne, hd, c2, hi, h2⟩ := at_step hash m hw e he c x l h
      have := ih n c2 h2 (by simp at hn; omega)
      simp [HashMap.traverseLoop, hne, hd, hi, this, bind, Except.bind, pure, Except.pure]

theorem advance_at (hash : K → Nat) (m : HashMap K V) (hw : HashMap.WF hash m)
    (e : HashMap.ConstIterator) (he : m.cend = .ok e) (l : List (K × V)) :
    ∀ (c : HashMap.ConstIterator), m.At e c l →
      HashMap.advance m l.length c = .ok e ∧
      ∀ k, k < l.length → ∃ c2, HashMap.advance m k c = .ok c2 ∧ c2 ≠ e := by
  induction l with
  | nil =>
    intro c h
    refine ⟨by simp [HashMap.advance, at_nil m e c h], ?_⟩
    intro k hk
    simp at hk
  | cons x l ih =>
    intro c h
    obtain ⟨hne, _, c2, hi, h2⟩ := at_step hash m hw e he c x l h
    obtain ⟨ih1, ih2⟩ := ih c2 h2
    refine ⟨by simp [HashMap.advance, hi, ih1, bind, Except.bind], ?_⟩
    intro k hk
    cases k with
    | zero => exact ⟨c, rfl, hne⟩
    | succ k =>
      obtain ⟨c3, h3, h4⟩ := ih2 k (by simp at hk; omega)
      exact ⟨c3, by simp [HashMap.advance, hi, h3, bind, Except.bind], h4⟩

theorem nodup_keys_bucketsFrom (hash : K → Nat) (m : HashMap K V) (hw : HashMap.WF hash m)
    (n i : Nat) : ((bucketsFrom m n i).map Prod.fst).Nodup := by
  induction n generalizing i with
  | zero => simp [bucketsFrom]
  | succ n ih =>
    rw [bucketsFrom, List.map_append, List.nodup_append]
    refine ⟨hw.nodup i, ih (i + 1), ?_⟩
    intro k h1 h2
    obtain ⟨x, hx, hxk⟩ := List.mem_map.mp h1
    obtain ⟨y, hy, hyk⟩ := List.mem_map.mp h2
    obtain ⟨j, hj1, _, hj3⟩ := (mem_bucketsFrom m n (i + 1) y).mp hy
    have e1 := hw.home i x hx
    have e2 := hw.home j y hj3
    rw [hxk] at e1
    rw [hyk] at e2
    omega

theorem mem_entries (hash : K → Nat) (m : HashMap K V) (hw : HashMap.WF hash m) (x : K × V) :
    x ∈ m.entries ↔ ∃ i, x ∈ m.hashTable i := by
  unfold HashMap.entries
  rw [mem_bucketsFrom]
  constructor
  · rintro ⟨k, _, _, h⟩
    exact ⟨k, h⟩
  · rintro ⟨i, h⟩
    refine ⟨i, Nat.zero_le _, ?_, h⟩
    rw [← hw.home i x h]
    have : hash x.1 % BUCKETS_NUMBER < BUCKETS_NUMBER := Nat.mod_lt _ (by decide)
    omega

theorem length_entries (hash : K → Nat) (m : HashMap K V) (hw : HashMap.WF hash m) :
    m.entries.length = m.size := by
  unfold HashMap.entries
  rw [length_bucketsFrom, hw.count]
  simp

section hashed
variable [DecidableEq K] (hash : K → Nat)

/-- C12: on every map reachable by `operator[]`, assignment and the two
`remove` overloads, the loop `for(it = begin(); it != end(); ++it)` visits the
entries of bucket 0, bucket 1, ... in this order, each bucket in its list
order; these are `getSize()` entries, no entry occurs twice, and they are
exactly the entries stored in the table.  Applying `++` `getSize()` times to
`begin()` gives `end()`, and no smaller number of steps does. -/
theorem hashMap_traverse_spec [DecidableEq V] [Inhabited V] (m : HashMap K V)
    (hr : HashMap.Reachable hash m) :
    m.traverse = .ok m.entries ∧
    m.entries.length = m.getSize ∧
    m.entries.Nodup ∧
    (∀ x, x ∈ m.entries ↔ ∃ i, x ∈ m.hashTable i) ∧
    (∃ e, m.cend = .ok e ∧ HashMap.advance m m.getSize m.cbegin = .ok e ∧
      ∀ k, k < m.getSize → ∃ c, HashMap.advance m k m.cbegin = .ok c ∧ c ≠ e) := by
  have hw := reachable_wf hash m hr
  obtain ⟨e, he, _⟩ := cend_ok hash m hw
  have hat := at_begin hash m hw e he
  have hlen := length_entries hash m hw
  refine ⟨?_, hlen, ?_, mem_entries hash m hw, e, he, ?_⟩
  · unfold HashMap.traverse
    rw [he]
    exact traverseLoop_at hash m hw e he _ _ _ hat (Nat.lt_succ_self _)
  · exact nodup_of_keys _ (nodup_keys_bucketsFrom hash m hw _ _)
  · have := advance_at hash m hw e he _ _ hat
    rw [hlen] at this
    exact this

end hashed

section hashed
variable [DecidableEq K] (hash : K → Nat)

theorem find_present (m : HashMap K V) (key : K) (v : V) (i : Nat)
    (hw : HashMap.WF hash m) (hmem : (key, v) ∈ m.hashTable i) :
    ∃ cit, HashMap.find hash m key = .ok cit ∧ (∀ e, m.cend = .ok e → cit ≠ e) ∧
      cit.deref m = .ok (key, v) := by
  have hi : hash key % BUCKETS_NUMBER = i := hw.home i _ hmem
  subst hi
  have hsz := size_pos_of_mem hash m hw _ _ hmem
  have hemp : m.isEmpty = false := by
    simp [HashMap.isEmpty]; omega
  cases hs : scanBucket key (m.hashTable (hash key % BUCKETS_NUMBER)) with
  | none => exact absurd rfl ((scanBucket_none key _).mp hs _ hmem)
  | some pos =>
    obtain ⟨w, hw2⟩ := scanBucket_some key _ pos hs
    have hwv : w = v :=
      nodup_keys_value _ (hw.nodup _) key w v (List.getElem?_mem hw2) hmem
    subst hwv
    have hlt : pos < (m.hashTable (hash key % BUCKETS_NUMBER)).length := by
      rcases Nat.lt_or_ge pos (m.hashTable (hash key % BUCKETS_NUMBER)).length with h | h
      · exact h
      · rw [List.getElem?_eq_none h] at hw2; cases hw2
    refine ⟨⟨hash key % BUCKETS_NUMBER, pos⟩, by simp [HashMap.find, hemp, hs], ?_, ?_⟩
    · intro e he hce
      have heit := cend_it hash m hw e he
      rw [← hce] at heit
      simp only at heit
      omega
    · simp [HashMap.ConstIterator.deref, hw2, Nat.ne_of_lt hlt]

theorem find_absent (m : HashMap K V) (key : K)
    (hw : HashMap.WF hash m) (hno : ¬ m.Stored key) :
    ∃ e, m.cend = .ok e ∧ HashMap.find hash m key = .ok e := by
  obtain ⟨e, he, _⟩ := cend_ok hash m hw
  refine ⟨e, he, ?_⟩
  unfold HashMap.find
  by_cases hemp : m.isEmpty = true
  · simp [hemp, he]
  · have hs : scanBucket key (m.hashTable (hash key % BUCKETS_NUMBER)) = none := by
      apply (scanBucket_none key _).mpr
      intro x hx hk
      obtain ⟨a, b⟩ := x
      simp only at hk
      subst hk
      exact hno ⟨_, b, hx⟩
    simp [hemp, hs, he]

theorem eqLoop_at [DecidableEq V] (a b : HashMap K V) (ha : HashMap.WF hash a)
    (hb : HashMap.WF hash b) (e : HashMap.ConstIterator) (he : b.cend = .ok e)
    (l : List (K × V)) :
    ∀ (n : Nat) (c : HashMap.ConstIterator), b.At e c l → l.length < n →
      HashMap.eqLoop hash a b e n c
        = .ok (l.all (fun x => decide (x ∈ a.hashTable (hash x.1 % BUCKETS_NUMBER)))) := by
  induction l with
  | nil =>
    intro n c h hn
    cases n with
    | zero => omega
    | succ n => simp [HashMap.eqLoop, at_nil b e c h, pure, Except.pure]
  | cons x l ih =>
    intro n c h hn
    cases n with
    | zero => omega
    | succ n =>
      obtain ⟨hne, hd, c2, hi, h2⟩ := at_step hash b hb e he c x l h
      have hrec := ih n c2 h2 (by simp at hn; omega)
      obtain ⟨k, v⟩ := x
      by_cases hst : a.Stored k
      · obtain ⟨i, w, hmem⟩ := hst
        obtain ⟨cit, hf, hcne, hcd⟩ := find_present hash a k w i ha hmem
        obtain ⟨ea, hea, _⟩ := cend_ok hash a ha
        have hi2 : hash k % BUCKETS_NUMBER = i := ha.home i _ hmem
        by_cases hwv : w = v
        · subst hwv
          have hin : (k, w) ∈ a.hashTable (hash k % BUCKETS_NUMBER) := hi2 ▸ hmem
          simp [HashMap.eqLoop, hne, hd, hf, hea, hcne ea hea, hcd, hi, hrec, hin,
            bind, Except.bind, pure, Except.pure]
        · have hnin : (k, v) ∉ a.hashTable (hash k % BUCKETS_NUMBER) := by
            intro hin
            exact hwv (nodup_keys_value _ (ha.nodup _) k w v (hi2 ▸ hmem) hin)
          simp [HashMap.eqLoop, hne, hd, hf, hea, hcne ea hea, hcd, hwv, hnin,
            bind, Except.bind, pure, Except.pure]
      · obtain ⟨ea, hea, hf⟩ := find_absent hash a k ha hst
        have hnin : (k, v) ∉ a.hashTable (hash k % BUCKETS_NUMBER) :=
          fun hin => hst ⟨_, v, hin⟩
        simp [HashMap.eqLoop, hne, hd, hf, hea, hnin, bind, Except.bind, pure, Except.pure]

theorem beq_eq [DecidableEq V] (a b : HashMap K V) (ha : HashMap.WF hash a)
    (hb : HashMap.WF hash b) :
    HashMap.beq hash a b = .ok (decide (a.size = b.size) &&
      b.entries.all (fun x => decide (x ∈ a.hashTable (hash x.1 % BUCKETS_NUMBER)))) := by
  unfold HashMap.beq
  by_cases hs : a.size = b.size
  · obtain ⟨e, he, _⟩ := cend_ok hash b hb
    simp only [HashMap.getSize, hs, ne_eq, not_true_eq_false, if_false, he, decide_True,
      Bool.true_and]
    exact eqLoop_at hash a b ha hb e he _ _ _ (at_begin hash b hb e he) (Nat.lt_succ_self _)
  · simp [HashMap.getSize, hs, pure, Except.pure]

theorem beq_true_iff [DecidableEq V] (a b : HashMap K V) (ha : HashMap.WF hash a)
    (hb : HashMap.WF hash b) :
    HashMap.beq hash a b = .ok true ↔
      ∀ x, (∃ i, x ∈ a.hashTable i) ↔ (∃ i, x ∈ b.hashTable i) := by
  rw [beq_eq hash a b ha hb]
  have hna : a.entries.Nodup := nodup_of_keys _ (nodup_keys_bucketsFrom hash a ha _ _)
  have hnb : b.entries.Nodup := nodup_of_keys _ (nodup_keys_bucketsFrom hash b hb _ _)
  constructor
  · intro h
    injection h with h
    simp only [Bool.and_eq_true, decide_eq_true_eq, List.all_eq_true] at h
    obtain ⟨hsz, hall⟩ := h
    have hsub : b.entries ⊆ a.entries := by
      intro x hx
      exact (mem_entries hash a ha x).mpr ⟨_, hall x hx⟩
    have hperm : b.entries.Perm a.entries := by
      apply List.Subperm.perm_of_length_le (List.subperm_of_subset hnb hsub)
      rw [length_entries hash a ha, length_entries hash b hb, hsz]
    intro x
    rw [← mem_entries hash a ha, ← mem_entries hash b hb]
    exact (hperm.mem_iff).symm
  · intro h
    have hmem : ∀ x, x ∈ a.entries ↔ x ∈ b.entries := by
      intro x
      rw [mem_entries hash a ha, mem_entries hash b hb]
      exact h x
    have hperm : a.entries.Perm b.entries := (List.perm_ext_iff_of_nodup hna hnb).mpr hmem
    have hsz : a.size = b.size := by
      rw [← length_entries hash a ha, ← length_entries hash b hb]
      exact hperm.length_eq
    congr 1
    simp only [Bool.and_eq_true, decide_eq_true_eq, List.all_eq_true]
    refine ⟨hsz, ?_⟩
    intro x hx
    obtain ⟨i, hi⟩ := (h x).mpr ((mem_entries hash b hb x).mp hx)
    rw [ha.home i x hi]
    exact hi

end hashed

theorem mem_setValueAt (l : List (K × V)) (hn : (l.map Prod.fst).Nodup) (pos : Nat) (k : K)
    (w v : V) (h : l[pos]? = some (k, w)) (x : K × V) :
    x ∈ setValueAt v l pos ↔ x = (k, v) ∨ (x ∈ l ∧ x.1 ≠ k) := by
  induction l generalizing pos with
  | nil => simp at h
  | cons e rest ih =>
    simp only [List.map_cons, List.nodup_cons] at hn
    cases pos with
    | zero =>
      simp only [List.getElem?_cons_zero, Option.some.injEq] at h
      subst h
      simp only [setValueAt, List.mem_cons]
      constructor
      · rintro (h | h)
        · exact Or.inl h
        · right
          refine ⟨Or.inr h, ?_⟩
          intro hk
          exact hn.1 (List.mem_map.mpr ⟨x, h, hk⟩)
      · rintro (h | ⟨h1 | h1, h2⟩)
        · exact Or.inl h
        · exact absurd (by rw [h1]) h2
        · exact Or.inr h1
    | succ p =>
      simp only [List.getElem?_cons_succ] at h
      have hek : e.1 ≠ k := by
        intro hk
        apply hn.1
        rw [hk]
        exact List.mem_map.mpr ⟨(k, w), List.getElem?_mem h, rfl⟩
      simp only [setValueAt, List.mem_cons, ih hn.2 p h]
      constructor
      · rintro (h1 | h1 | ⟨h1, h2⟩)
        · exact Or.inr ⟨Or.inl h1, by rw [h1]; exact hek⟩
        · exact Or.inl h1
        · exact Or.inr ⟨Or.inr h1, h2⟩
      · rintro (h1 | ⟨h1 | h1, h2⟩)
        · exact Or.inr (Or.inl h1)
        · exact Or.inl h1
        · exact Or.inr (Or.inr ⟨h1, h2⟩)

section hashed
variable [DecidableEq K] (hash : K → Nat)

theorem mem_assign [Inhabited V] (m : HashMap K V) (hw : HashMap.WF hash m) (k : K) (v : V)
    (x : K × V) :
    (∃ i, x ∈ (HashMap.assign hash m k v).hashTable i) ↔
      x = (k, v) ∨ (x.1 ≠ k ∧ ∃ i, x ∈ m.hashTable i) := by
  have hw1 := wf_index hash m k hw
  -- the slot returned by `operator[]` holds the key, and the other entries are those of `m`
  have hslot : (HashMap.index hash m k).2.1 = hash k % BUCKETS_NUMBER ∧
      (∃ w, ((HashMap.index hash m k).1.hashTable (hash k % BUCKETS_NUMBER))[
        (HashMap.index hash m k).2.2]? = some (k, w)) ∧
      (∀ y : K × V, y.1 ≠ k →
        ((∃ i, y ∈ (HashMap.index hash m k).1.hashTable i) ↔ ∃ i, y ∈ m.hashTable i)) := by
    cases hs : scanBucket k (m.hashTable (hash k % BUCKETS_NUMBER)) with
    | some pos =>
      rw [index_of_some hash m k pos hs]
      obtain ⟨w, hw2⟩ := scanBucket_some k _ pos hs
      exact ⟨rfl, ⟨w, hw2⟩, fun y _ => Iff.rfl⟩
    | none =>
      rw [index_of_none hash m k hs]
      refine ⟨rfl, ⟨default, by simp⟩, ?_⟩
      intro y hy
      constructor
      · rintro ⟨i, hi⟩
        simp only at hi
        split at hi
        · rcases List.mem_append.mp hi with h | h
          · exact ⟨_, h⟩
          · simp at h; subst h; exact absurd rfl hy
        · exact ⟨i, hi⟩
      · rintro ⟨i, hi⟩
        refine ⟨i, ?_⟩
        simp only
        split
        · rename_i h; subst h; exact List.mem_append.mpr (Or.inl hi)
        · exact hi
  obtain ⟨h1, ⟨w, h2⟩, h3⟩ := hslot
  unfold HashMap.assign
  simp only [h1]
  constructor
  · rintro ⟨i, hi⟩
    split at hi
    · rename_i hidx
      subst hidx
      rcases (mem_setValueAt _ (hw1.nodup _) _ k w v h2 x).mp hi with h | ⟨h, hk⟩
      · exact Or.inl h
      · exact Or.inr ⟨hk, (h3 x hk).mp ⟨_, h⟩⟩
    · by_cases hk : x.1 = k
      · exfalso
        rename_i hne
        apply hne
        rw [← hw1.home i x hi, hk]
      · exact Or.inr ⟨hk, (h3 x hk).mp ⟨i, hi⟩⟩
  · rintro (h | ⟨hk, hst⟩)
    · refine ⟨hash k % BUCKETS_NUMBER, ?_⟩
      simp only [if_true]
      exact (mem_setValueAt _ (hw1.nodup _) _ k w v h2 x).mpr (Or.inl h)
    · obtain ⟨i, hi⟩ := (h3 x hk).mpr hst
      refine ⟨i, ?_⟩
      split
      · rename_i hidx
        subst hidx
        exact (mem_setValueAt _ (hw1.nodup _) _ k w v h2 x).mpr (Or.inr ⟨hi, hk⟩)
      · exact hi

theorem wf_assignAll [Inhabited V] (l : List (K × V)) :
    ∀ m : HashMap K V, HashMap.WF hash m → HashMap.WF hash (HashMap.assignAll hash m l) := by
  induction l with
  | nil => intro m hw; exact hw
  | cons p rest ih =>
    intro m hw
    obtain ⟨k, v⟩ := p
    exact ih _ (wf_assign hash m k v hw)

theorem mem_assignAll [Inhabited V] (l : List (K × V)) (hn : (l.map Prod.fst).Nodup) :
    ∀ (m : HashMap K V), HashMap.WF hash m → ∀ x : K × V,
      ((∃ i, x ∈ (HashMap.assignAll hash m l).hashTable i) ↔
        x ∈ l ∨ (x.1 ∉ l.map Prod.fst ∧ ∃ i, x ∈ m.hashTable i)) := by
  induction l with
  | nil => intro m _ x; simp [HashMap.assignAll]
  | cons p rest ih =>
    intro m hw x
    obtain ⟨k, v⟩ := p
    simp only [List.map_cons, List.nodup_cons] at hn
    simp only [HashMap.assignAll]
    rw [ih hn.2 _ (wf_assign hash m k v hw) x, mem_assign hash m hw k v x]
    simp only [List.mem_cons, List.map_cons, not_or]
    constructor
    · rintro (h | ⟨h1, h2 | ⟨h2, h3⟩⟩)
      · exact Or.inl (Or.inr h)
      · exact Or.inl (Or.inl h2)
      · exact Or.inr ⟨⟨h2, h1⟩, h3⟩
    · rintro ((h | h) | ⟨⟨h1, h2⟩, h3⟩)
      · right
        refine ⟨?_, Or.inl h⟩
        rw [h]
        exact hn.1
      · exact Or.inl h
      · exact Or.inr ⟨h2, Or.inr ⟨h1, h3⟩⟩

theorem reachable_assignAll [DecidableEq V] [Inhabited V] (l : List (K × V)) :
    ∀ m : HashMap K V, HashMap.Reachable hash m →
      HashMap.Reachable hash (HashMap.assignAll hash m l) := by
  induction l with
  | nil => intro m h; exact h
  | cons p rest ih =>
    intro m h
    obtain ⟨k, v⟩ := p
    exact ih _ (HashMap.Reachable.assign m k v h)

end hashed

section hashed
variable [DecidableEq K] (hash : K → Nat)

theorem stored_index [Inhabited V] (m : HashMap K V) (k k2 : K) :
    (HashMap.index hash m k).1.Stored k2 ↔ k2 = k ∨ m.Stored k2 := by
  cases hs : scanBucket k (m.hashTable (hash k % BUCKETS_NUMBER)) with
  | some pos =>
    rw [index_of_some hash m k pos hs]
    obtain ⟨w, hw2⟩ := scanBucket_some k _ pos hs
    constructor
    · exact Or.inr
    · rintro (h | h)
      · subst h; exact ⟨_, w, List.getElem?_mem hw2⟩
      · exact h
  | none =>
    rw [index_of_none hash m k hs]
    constructor
    · rintro ⟨i, v, h⟩
      simp only at h
      split at h
      · rcases List.mem_append.mp h with h | h
        · exact Or.inr ⟨_, v, h⟩
        · simp at h; exact Or.inl h.1
      · exact Or.inr ⟨i, v, h⟩
    · rintro (h | ⟨i, v, h⟩)
      · subst h
        exact ⟨hash k2 % BUCKETS_NUMBER, default, by simp⟩
      · refine ⟨i, v, ?_⟩
        simp only
        split
        · rename_i hi; subst hi; exact List.mem_append.mpr (Or.inl h)
        · exact h

theorem size_index [Inhabited V] (m : HashMap K V) (hw : HashMap.WF hash m) (k : K) :
    (m.Stored k → (HashMap.index hash m k).1.size = m.size) ∧
    (¬ m.Stored k → (HashMap.index hash m k).1.size = m.size + 1) := by
  cases hs : scanBucket k (m.hashTable (hash k % BUCKETS_NUMBER)) with
  | some pos =>
    rw [index_of_some hash m k pos hs]
    obtain ⟨w, hw2⟩ := scanBucket_some k _ pos hs
    exact ⟨fun _ => rfl, fun h => absurd ⟨_, w, List.getElem?_mem hw2⟩ h⟩
  | none =>
    rw [index_of_none hash m k hs]
    refine ⟨?_, fun _ => rfl⟩
    rintro ⟨i, v, h⟩
    exfalso
    have hi := hw.home i _ h
    simp only at hi
    subst hi
    exact (scanBucket_none k _).mp hs _ h rfl

theorem indexAll_inv [Inhabited V] (l : List K) :
    ∀ (m : HashMap K V) (S : Finset K), HashMap.WF hash m → (∀ k, m.Stored k ↔ k ∈ S) →
      m.size = S.card →
      HashMap.WF hash (HashMap.indexAll hash m l) ∧
      (∀ k, (HashMap.indexAll hash m l).Stored k ↔ k ∈ S ∪ l.toFinset) ∧
      (HashMap.indexAll hash m l).size = (S ∪ l.toFinset).card := by
  induction l with
  | nil =>
    intro m S hw hS hc
    simpa [HashMap.indexAll] using ⟨hw, hS, hc⟩
  | cons k rest ih =>
    intro m S hw hS hc
    have hw1 := wf_index hash m k hw
    have hS1 : ∀ k2, (HashMap.index hash m k).1.Stored k2 ↔ k2 ∈ insert k S := by
      intro k2
      rw [stored_index, Finset.mem_insert, hS]
    have hc1 : (HashMap.index hash m k).1.size = (insert k S).card := by
      by_cases hk : m.Stored k
      · rw [(size_index hash m hw k).1 hk, Finset.insert_eq_of_mem ((hS k).mp hk), hc]
      · rw [(size_index hash m hw k).2 hk,
          Finset.card_insert_of_not_mem (fun h => hk ((hS k).mpr h)), hc]
    have := ih _ (insert k S) hw1 hS1 hc1
    have hU : insert k S ∪ rest.toFinset = S ∪ (k :: rest).toFinset := by
      ext x
      simp only [Finset.mem_union, Finset.mem_insert, List.toFinset_cons]
      tauto
    rw [hU] at this
    exact this

omit [DecidableEq K] in
theorem wf_unique (m : HashMap K V) (hw : HashMap.WF hash m) (i j p q : Nat) (e1 e2 : K × V)
    (h1 : (m.hashTable i)[p]? = some e1) (h2 : (m.hashTable j)[q]? = some e2)
    (hk : e1.1 = e2.1) : i = j ∧ p = q := by
  have hi := hw.home i e1 (List.getElem?_mem h1)
  have hj := hw.home j e2 (List.getElem?_mem h2)
  have hij : i = j := by rw [← hi, ← hj, hk]
  subst hij
  refine ⟨rfl, ?_⟩
  have hp : p < ((m.hashTable i).map Prod.fst).length := by
    rcases Nat.lt_or_ge p (m.hashTable i).length with h | h
    · simpa using h
    · rw [List.getElem?_eq_none h] at h1; cases h1
  apply List.getElem?_inj hp (hw.nodup i)
  rw [List.getElem?_map, List.getElem?_map, h1, h2]
  simp [hk]

/-- C11: after `operator[]` has been called for each key of a finite sequence
on the default-constructed map, no two positions of the table (in the same or
in different buckets) hold the same key, the stored keys are exactly the keys
of the sequence, and `getSize()` is the number of distinct keys of the
sequence. -/
theorem hashMap_index_unique [Inhabited V] (keys : List K) :
    (∀ (i j p q : Nat) (e1 e2 : K × V),
      ((HashMap.indexAll hash (HashMap.empty : HashMap K V) keys).hashTable i)[p]? = some e1 →
      ((HashMap.indexAll hash (HashMap.empty : HashMap K V) keys).hashTable j)[q]? = some e2 →
      e1.1 = e2.1 → i = j ∧ p = q) ∧
    (∀ k, (HashMap.indexAll hash (HashMap.empty : HashMap K V) keys).Stored k ↔ k ∈ keys) ∧
    (HashMap.indexAll hash (HashMap.empty : HashMap K V) keys).getSize = keys.dedup.length := by
  obtain ⟨hw, hS, hc⟩ := indexAll_inv hash keys (HashMap.empty : HashMap K V) ∅
    (wf_empty hash) (by
      intro k
      simp only [Finset.not_mem_empty, iff_false]
      rintro ⟨i, v, h⟩
      simp [HashMap.empty] at h) (by simp [HashMap.empty])
  refine ⟨fun i j p q e1 e2 => wf_unique hash _ hw i j p q e1 e2, ?_, ?_⟩
  · intro k
    rw [hS k]
    simp
  · rw [HashMap.getSize, hc, Finset.empty_union, List.card_toFinset]

/-- C13: for reachable maps `a` and `b`, `a == b` returns true exactly when
every (key, value) entry of one is an entry of the other; it always returns a
truth value, `a == b` and `b == a` agree, maps that store different values for
one key compare unequal, and two maps built by `m[k] = v` from the same pairs
with distinct keys in two different orders compare equal. -/
theorem hashMap_eq_spec [DecidableEq V] [Inhabited V] (a b : HashMap K V)
    (ha : HashMap.Reachable hash a) (hb : HashMap.Reachable hash b) :
    (HashMap.beq hash a b = .ok true ↔
      ∀ x, (∃ i, x ∈ a.hashTable i) ↔ (∃ i, x ∈ b.hashTable i)) ∧
    (HashMap.beq hash a b = .ok true ∨ HashMap.beq hash a b = .ok false) ∧
    HashMap.beq hash a b = HashMap.beq hash b a ∧
    (∀ k v w, v ≠ w → (∃ i, (k, v) ∈ a.hashTable i) → (∃ i, (k, w) ∈ b.hashTable i) →
      HashMap.beq hash a b = .ok false) ∧
    (∀ l1 l2 : List (K × V), l1.Perm l2 → (l1.map Prod.fst).Nodup →
      HashMap.beq hash (HashMap.assignAll hash HashMap.empty l1)
        (HashMap.assignAll hash HashMap.empty l2) = .ok true) := by
  have hwa := reachable_wf hash a ha
  have hwb := reachable_wf hash b hb
  have hbool : ∀ (p q : HashMap K V), HashMap.WF hash p → HashMap.WF hash q →
      (HashMap.beq hash p q = .ok true ∨ HashMap.beq hash p q = .ok false) := by
    intro p q hp hq
    rw [beq_eq hash p q hp hq]
    cases (decide (p.size = q.size) &&
      q.entries.all (fun x => decide (x ∈ p.hashTable (hash x.1 % BUCKETS_NUMBER))))
    · exact Or.inr rfl
    · exact Or.inl rfl
  refine ⟨beq_true_iff hash a b hwa hwb, hbool a b hwa hwb, ?_, ?_, ?_⟩
  · have hab := beq_true_iff hash a b hwa hwb
    have hba := beq_true_iff hash b a hwb hwa
    have hiff : HashMap.beq hash a b = .ok true ↔ HashMap.beq hash b a = .ok true := by
      rw [hab, hba]
      exact ⟨fun h x => (h x).symm, fun h x => (h x).symm⟩
    rcases hbool a b hwa hwb with h1 | h1 <;> rcases hbool b a hwb hwa with h2 | h2
    · rw [h1, h2]
    · rw [hiff.mp h1] at h2; cases h2
    · rw [hiff.mpr h2] at h1; cases h1
    · rw [h1, h2]
  · intro k v w hvw hav hbw
    rcases hbool a b hwa hwb with h1 | h1
    · exfalso
      obtain ⟨i, hi⟩ := hav
      obtain ⟨j, hj⟩ := ((beq_true_iff hash a b hwa hwb).mp h1 (k, w)).mpr hbw
      have e1 := hwa.home i _ hi
      have e2 := hwa.home j _ hj
      simp only at e1 e2
      rw [← e1, e2] at hi
      exact hvw (nodup_keys_value _ (hwa.nodup _) k v w hi hj)
    · exact h1
  · intro l1 l2 hp hn
    have hn2 : (l2.map Prod.fst).Nodup := (hp.map Prod.fst).nodup_iff.mp hn
    have hw1 := wf_assignAll hash l1 (HashMap.empty : HashMap K V) (wf_empty hash)
    have hw2 := wf_assignAll hash l2 (HashMap.empty : HashMap K V) (wf_empty hash)
    rw [beq_true_iff hash _ _ hw1 hw2]
    intro x
    rw [mem_assignAll hash l1 hn _ (wf_empty hash), mem_assignAll hash l2 hn2 _ (wf_empty hash)]
    simp only [HashMap.empty, List.not_mem_nil, exists_false, and_false, or_false]
    exact hp.mem_iff

/-- C20: in every map reachable from the default-constructed map by
`operator[]`, assignment through the returned reference, `remove(key)` and
`remove(iterator)` on an iterator that designates an entry, the `size` field is
the sum of the lengths of the `BUCKETS_NUMBER` buckets (the number of entries
of the array). -/
theorem hashMap_size_invariant [DecidableEq V] [Inhabited V] (m : HashMap K V)
    (hr : HashMap.Reachable hash m) :
    m.size = ∑ i in Finset.range BUCKETS_NUMBER, (m.hashTable i).length ∧
    m.size = m.entries.length :=
  ⟨(reachable_wf hash m hr).count, (length_entries hash m (reachable_wf hash m hr)).symm⟩

end hashed

/-! ### The hash table at concrete inputs -/

theorem oneKeyMap_table (i : Nat) :
    oneKeyMap.hashTable i = if i = 1 then [(1, 0)] else [] := by
  simp [oneKeyMap, HashMap.index, HashMap.empty, scanBucket, natHash, BUCKETS_NUMBER]

/-- C16, the code at the map after `m[1];` (its first non-empty bucket is
bucket 1): `begin()` is the first position of bucket 1, and `--` applied to it
scans down from bucket 0, finds it empty, decrements the unsigned index below 0
and reads a bucket outside the array; the `throw` after the loop
`while(i >= 0)` is unreachable.  On the empty map, and whenever bucket 0 is the
first non-empty one, `--begin()` throws as claimed. -/
theorem hashMap_decr_begin_out_of_bounds :
    oneKeyMap.cbegin = ⟨1, 0⟩ ∧
    HashMap.ConstIterator.decr oneKeyMap oneKeyMap.cbegin = .error .fault ∧
    HashMap.ConstIterator.decr (HashMap.empty : HashMap Nat Nat)
      (HashMap.empty : HashMap Nat Nat).cbegin = .error .outOfRange :=
  ⟨rfl, rfl, rfl⟩

theorem moved_from_table (i : Nat) :
    (HashMap.moveConstruct oneKeyMap).2.hashTable i = [] := by
  simp only [HashMap.moveConstruct]
  split
  · rfl
  · rename_i h
    rw [oneKeyMap_table]
    have : i ≠ 1 := by
      intro h1; apply h; rw [h1]; decide
    simp [this]

theorem cend_of_stale_size (m : HashMap K V) (h1 : m.isEmpty = false)
    (h2 : ∀ k, m.hashTable k = []) : m.cend = .error .fault := by
  unfold HashMap.cend
  simp only [h1]
  exact scanDown_all_empty m _ (fun k _ => h2 k)

/-- C19, the code at the source map after `m[1];`: the move constructor gives
the destination the entry and the size 1, and leaves the source with every
bucket empty but with `size` still 1.  The source then is not empty by
`isEmpty()`, and its `end()` scans all buckets down, finds none non-empty and
reads below bucket 0.  Move assignment to the (unequal) empty map leaves the
source in the same state. -/
theorem hashMap_move_leaves_stale_size :
    (HashMap.moveConstruct oneKeyMap).1.size = 1 ∧
    (HashMap.moveConstruct oneKeyMap).1.hashTable 1 = [(1, 0)] ∧
    (HashMap.moveConstruct oneKeyMap).2.size = 1 ∧
    (∀ i, (HashMap.moveConstruct oneKeyMap).2.hashTable i = []) ∧
    (HashMap.moveConstruct oneKeyMap).2.isEmpty = false ∧
    (HashMap.moveConstruct oneKeyMap).2.cend = .error .fault ∧
    (HashMap.moveAssign natHash HashMap.empty oneKeyMap).map (fun r => r.2)
      = .ok (HashMap.moveConstruct oneKeyMap).2 := by
  exact ⟨rfl, rfl, rfl, moved_from_table, rfl,
    cend_of_stale_size _ rfl moved_from_table, rfl⟩

/-! ### The general theorems at the two-key maps -/

theorem collidingMapSwapped_reachable : HashMap.Reachable natHash collidingMapSwapped :=
  HashMap.Reachable.index _ 1 (HashMap.Reachable.index _ 64001 HashMap.Reachable.empty)

theorem hashMap_index_unique_witness :
    (HashMap.indexAll natHash (HashMap.empty : HashMap Nat Nat) [1, 64001, 1]).getSize
      = [1, 64001, 1].dedup.length ∧
    ((HashMap.indexAll natHash (HashMap.empty : HashMap Nat Nat) [1, 64001, 1]).Stored 64001
      ↔ 64001 ∈ [1, 64001, 1]) :=
  ⟨(hashMap_index_unique natHash [1, 64001, 1]).2.2,
   (hashMap_index_unique natHash [1, 64001, 1]).2.1 64001⟩

theorem hashMap_traverse_spec_witness :
    HashMap.Reachable natHash collidingMap ∧
    (collidingMap.traverse = .ok collidingMap.entries ∧
     collidingMap.entries.length = collidingMap.getSize ∧
     collidingMap.entries.Nodup ∧
     (∀ x, x ∈ collidingMap.entries ↔ ∃ i, x ∈ collidingMap.hashTable i) ∧
     (∃ e, collidingMap.cend = .ok e ∧
        HashMap.advance collidingMap collidingMap.getSize collidingMap.cbegin = .ok e ∧
        ∀ k, k < collidingMap.getSize →
          ∃ c, HashMap.advance collidingMap k collidingMap.cbegin = .ok c ∧ c ≠ e)) :=
  ⟨collidingMap_reachable, hashMap_traverse_spec natHash collidingMap collidingMap_reachable⟩

theorem hashMap_eq_spec_witness :
    HashMap.Reachable natHash collidingMap ∧
    HashMap.Reachable natHash collidingMapSwapped ∧
    (HashMap.beq natHash collidingMap collidingMapSwapped = .ok true ↔
      ∀ x, (∃ i, x ∈ collidingMap.hashTable i) ↔ (∃ i, x ∈ collidingMapSwapped.hashTable i)) ∧
    HashMap.beq natHash collidingMap collidingMapSwapped
      = HashMap.beq natHash collidingMapSwapped collidingMap :=
  ⟨collidingMap_reachable, collidingMapSwapped_reachable,
   (hashMap_eq_spec natHash collidingMap collidingMapSwapped collidingMap_reachable
      collidingMapSwapped_reachable).1,
   (hashMap_eq_spec natHash collidingMap collidingMapSwapped collidingMap_reachable
      collidingMapSwapped_reachable).2.2.1⟩

theorem hashMap_size_invariant_witness :
    HashMap.Reachable natHash collidingMap ∧
    (collidingMap.size = ∑ i in Finset.range BUCKETS_NUMBER, (collidingMap.hashTable i).length ∧
     collidingMap.size = collidingMap.entries.length) :=
  ⟨collidingMap_reachable, hashMap_size_invariant natHash collidingMap collidingMap_reachable⟩

/-! ## The hash table: the scan of `cend()` -/

theorem scanDown_greatest (m : HashMap K V) (n : Nat) (h : ∃ i, i ≤ n ∧ m.hashTable i ≠ []) :
    ∃ j, j ≤ n ∧ m.hashTable j ≠ [] ∧ (∀ k, j < k → k ≤ n → m.hashTable k = []) ∧
      scanDown m n = .ok ⟨j, (m.hashTable j).length⟩ := by
  induction n with
  | zero =>
    obtain ⟨i, hi, hne⟩ := h
    have : i = 0 := by omega
    subst this
    exact ⟨0, Nat.le_refl _, hne, fun k h1 h2 => by omega, by simp [scanDown, hne]⟩
  | succ n ih =>
    by_cases hlast : m.hashTable (n + 1) = []
    · obtain ⟨i, hi, hne⟩ := h
      have hin : i ≤ n := by
        rcases Nat.eq_or_lt_of_le hi with h1 | h1
        · subst h1; exact absurd hlast hne
        · omega
      obtain ⟨j, hj, hjne, hall, hs⟩ := ih ⟨i, hin, hne⟩
      refine ⟨j, by omega, hjne, ?_, ?_⟩
      · intro k h1 h2
        rcases Nat.eq_or_lt_of_le h2 with h3 | h3
        · subst h3; exact hlast
        · exact hall k h1 (by omega)
      · simp only [scanDown, hlast, List.isEmpty_nil, if_true]
        exact hs
    · exact ⟨n + 1, Nat.le_refl _, hlast, fun k h1 h2 => by omega, by simp [scanDown, hlast]⟩

/-- C24: in a map whose `size` equals the number of stored entries, `cend()`
returns normally.  If `size > 0`, the backward scan from bucket
`BUCKETS_NUMBER - 1` stops at a bucket `i` within the table that is not empty,
every bucket above `i` is empty, and the result is the end position of bucket
`i`; the index is never decremented at 0.  If `size = 0`, the result is the end
of bucket 0, which is the position `cbegin()` returns. -/
theorem hashMap_cend_in_bounds (m : HashMap K V)
    (hc : m.size = ∑ i in Finset.range BUCKETS_NUMBER, (m.hashTable i).length) :
    (0 < m.size → ∃ i, i < BUCKETS_NUMBER ∧ m.hashTable i ≠ [] ∧
      (∀ k, i < k → k < BUCKETS_NUMBER → m.hashTable k = []) ∧
      m.cend = .ok ⟨i, (m.hashTable i).length⟩) ∧
    (m.size = 0 → m.cend = .ok ⟨0, (m.hashTable 0).length⟩ ∧ m.cend = .ok m.cbegin) := by
  constructor
  · intro hpos
    have hne : ∑ i in Finset.range BUCKETS_NUMBER, (m.hashTable i).length ≠ 0 := by omega
    obtain ⟨i, hi, hlen⟩ := sum_pos_bucket _ _ hne
    have hbi : m.hashTable i ≠ [] := by
      intro h0; apply hlen; rw [h0]; rfl
    obtain ⟨j, hj, hjne, hall, hs⟩ :=
      scanDown_greatest m (BUCKETS_NUMBER - 1) ⟨i, by omega, hbi⟩
    have hB : 0 < BUCKETS_NUMBER := by decide
    refine ⟨j, by omega, hjne, fun k h1 h2 => hall k h1 (by omega), ?_⟩
    have hemp : m.isEmpty = false := by
      simp [HashMap.isEmpty]; omega
    simp only [HashMap.cend, hemp]
    exact hs
  · intro h0
    have hemp : m.isEmpty = true := by simp [HashMap.isEmpty, h0]
    have hz : (m.hashTable 0).length = 0 := by
      have hsum : ∑ i in Finset.range BUCKETS_NUMBER, (m.hashTable i).length = 0 := by omega
      exact (Finset.sum_eq_zero_iff.mp hsum) 0 (Finset.mem_range.mpr (by decide))
    simp [HashMap.cend, HashMap.cbegin, hemp, hz]

theorem hashMap_cend_in_bounds_witness :
    collidingMap.size = ∑ i in Finset.range BUCKETS_NUMBER, (collidingMap.hashTable i).length ∧
    0 < collidingMap.size ∧
    (∃ i, i < BUCKETS_NUMBER ∧ collidingMap.hashTable i ≠ [] ∧
      (∀ k, i < k → k < BUCKETS_NUMBER → collidingMap.hashTable k = []) ∧
      collidingMap.cend = .ok ⟨i, (collidingMap.hashTable i).length⟩) :=
  ⟨(reachable_wf natHash collidingMap collidingMap_reachable).count, by decide,
   (hashMap_cend_in_bounds collidingMap
      (reachable_wf natHash collidingMap collidingMap_reachable).count).1 (by decide)⟩

end aisdi
